import Mathlib

/-!
Verification of the document-preparation transform and error-handling glue of
the travelchat RAG backend (src/app/utils/data_processor.py,
src/app/utils/openai_utils.py, src/app/utils/weaviate_utils.py, src/app/main.py).

The Python code is dynamically typed, so the embedding works over a dynamic
value domain `PyVal` mirroring the JSON-serializable Python values the code
manipulates (floats are outside the modelled domain; every claim under study
is about integer timestamps and ids).  Code that can raise is embedded in
`Except PyErr`.
-/

/-- Dynamic Python/JSON value: None, bool, int, str, list, dict. -/
inductive PyVal where
  | none
  | bool (b : Bool)
  | int (n : Int)
  | str (s : String)
  | list (xs : List PyVal)
  | dict (fs : List (String × PyVal))

/-- The Python exception classes the modelled code can raise. -/
inductive PyErr where
  | valueError
  | typeError
  | attributeError
deriving DecidableEq

/-- Python truthiness (`bool(v)`) on the modelled domain. -/
def pyTruthy (v : PyVal) : Bool :=
  match v with
  | .none => false
  | .bool b => b
  | .int n => n != 0
  | .str s => s != ""
  | .list xs => !xs.isEmpty
  | .dict fs => !fs.isEmpty

/-- `d.get(k, default)` on a dict represented as an association list. -/
def dGetD (fs : List (String × PyVal)) (k : String) (d : PyVal) : PyVal :=
  (fs.lookup k).getD d

/-- Python `str.strip()` whitespace predicate (ASCII subset of the domain). -/
def pyIsSpace (c : Char) : Bool :=
  c = ' ' || c = '\t' || c = '\n' || c = '\r' || c = '\x0b' || c = '\x0c'

def stripChars (cs : List Char) : List Char :=
  ((cs.dropWhile pyIsSpace).reverse.dropWhile pyIsSpace).reverse

/-- Python `str.strip()`. -/
def pyStrip (s : String) : String := String.mk (stripChars s.data)

/-- Character for a decimal digit value. -/
def digitCh (d : Nat) : Char := Char.ofNat (48 + d)

/-- Decimal digit characters of a natural number, most significant first
(fuel-based so that it reduces definitionally). -/
def natCharsAux : Nat → Nat → List Char
  | 0, _ => []
  | fuel + 1, m => if m = 0 then [] else natCharsAux fuel (m / 10) ++ [digitCh (m % 10)]

def natChars (m : Nat) : List Char :=
  if m = 0 then ['0'] else natCharsAux (m + 1) m

/-- Decimal representation of an integer, as Python prints it. -/
def intRepr (n : Int) : List Char :=
  if n < 0 then '-' :: natChars n.natAbs else natChars n.natAbs

/-- `repr` of a Python string: quoted with escapes (printable subset;
CPython prefers single quotes unless the string contains one and no double
quote). -/
def pyQuoteChar (q c : Char) : List Char :=
  if c = '\\' then ['\\', '\\']
  else if c = q then ['\\', q]
  else if c = '\n' then ['\\', 'n']
  else if c = '\r' then ['\\', 'r']
  else if c = '\t' then ['\\', 't']
  else [c]

def pyReprStr (s : String) : String :=
  let sq : Char := Char.ofNat 39
  let q : Char := if s.data.contains sq && !s.data.contains '"' then '"' else sq
  String.mk (q :: (s.data.map (pyQuoteChar q)).flatten ++ [q])

mutual
/-- `repr(v)` for the modelled Python values. -/
def pyReprV : PyVal → String
  | .none => "None"
  | .bool true => "True"
  | .bool false => "False"
  | .int n => String.mk (intRepr n)
  | .str s => pyReprStr s
  | .list xs => "[" ++ String.intercalate ", " (pyReprList xs) ++ "]"
  | .dict fs => String.mk ('\x7b' :: (String.intercalate ", " (pyReprFields fs)).data ++ ['\x7d'])

def pyReprList : List PyVal → List String
  | [] => []
  | x :: xs => pyReprV x :: pyReprList xs

def pyReprFields : List (String × PyVal) → List String
  | [] => []
  | (k, v) :: fs => (pyReprStr k ++ ": " ++ pyReprV v) :: pyReprFields fs
end

/-- `str(v)`: identity on strings, `repr` otherwise (true on this domain). -/
def pyStr (v : PyVal) : String :=
  match v with
  | .str s => s
  | v => pyReprV v

/-- Hex digit characters for `\uXXXX` escapes. -/
def hexCh (d : Nat) : Char :=
  if d < 10 then Char.ofNat (48 + d) else Char.ofNat (87 + d)

def hex4 (n : Nat) : List Char :=
  [hexCh (n / 4096 % 16), hexCh (n / 256 % 16), hexCh (n / 16 % 16), hexCh (n % 16)]

/-- JSON string-character escaping as `json.dumps` performs it
(`ensure_ascii=True`: non-ASCII goes to `\uXXXX`, astral characters to a
surrogate pair). -/
def jsonEscapeChar (c : Char) : List Char :=
  if c = '"' then ['\\', '"']
  else if c = '\\' then ['\\', '\\']
  else if c = '\n' then ['\\', 'n']
  else if c = '\r' then ['\\', 'r']
  else if c = '\t' then ['\\', 't']
  else if c = '\x08' then ['\\', 'b']
  else if c = '\x0c' then ['\\', 'f']
  else if c.toNat < 32 || c.toNat > 126 then
    if c.toNat ≤ 65535 then '\\' :: 'u' :: hex4 c.toNat
    else
      let m := c.toNat - 65536
      '\\' :: 'u' :: hex4 (55296 + m / 1024) ++ '\\' :: 'u' :: hex4 (56320 + m % 1024)
  else [c]

def jsonEscape (s : String) : List Char :=
  '"' :: (s.data.map jsonEscapeChar).flatten ++ ['"']

mutual
/-- `json.dumps` with its default separators, producing characters. -/
def dumpChars : PyVal → List Char
  | .none => "null".data
  | .bool true => "true".data
  | .bool false => "false".data
  | .int n => intRepr n
  | .str s => jsonEscape s
  | .list xs => '[' :: dumpList xs ++ [']']
  | .dict fs => '\x7b' :: dumpFields fs ++ ['\x7d']

def dumpList : List PyVal → List Char
  | [] => []
  | [x] => dumpChars x
  | x :: y :: xs => dumpChars x ++ ',' :: ' ' :: dumpList (y :: xs)

def dumpFields : List (String × PyVal) → List Char
  | [] => []
  | [(k, v)] => jsonEscape k ++ ':' :: ' ' :: dumpChars v
  | (k, v) :: f :: fs =>
      jsonEscape k ++ ':' :: ' ' :: dumpChars v ++ ',' :: ' ' :: dumpFields (f :: fs)
end

/-- `json.dumps(v)`. -/
def jsonDumps (v : PyVal) : String := String.mk (dumpChars v)

/-- `sep.join(l)` at the character level. -/
def joinWith (sep : List Char) : List String → List Char
  | [] => []
  | [s] => s.data
  | s :: t :: rest => s.data ++ sep ++ joinWith sep (t :: rest)

/-- Python `sep.join(l)`. -/
def pyJoin (sep : String) (l : List String) : String := String.mk (joinWith sep.data l)

/-! ## A JSON reader modelling `json.loads`

Recursive-descent over the character list, fuelled by the input length.
Numbers are restricted to integers (the modelled domain has no floats): a
numeric literal with a fractional or exponent part makes the parse fail.
-/

def jsonWs (c : Char) : Bool :=
  c = ' ' || c = '\t' || c = '\n' || c = '\r'

def skipWs (cs : List Char) : List Char := cs.dropWhile jsonWs

/-- Maximal run of decimal digits at the front. -/
def readDigits : List Char → List Char × List Char
  | [] => ([], [])
  | c :: cs =>
    if c.isDigit then
      let p := readDigits cs
      (c :: p.1, p.2)
    else ([], c :: cs)

/-- Value of a run of decimal digit characters. -/
def digitsToNat (ds : List Char) : Nat :=
  ds.foldl (fun a c => 10 * a + (c.toNat - 48)) 0

/-- Is this the start of a fractional or exponent continuation? -/
def fracStart : List Char → Bool
  | [] => false
  | c :: _ => c = '.' || c = 'e' || c = 'E'

/-- Read an unsigned JSON integer: at least one digit, no leading zero
before further digits, no fractional or exponent continuation. -/
def readJNat (cs : List Char) : Option (Nat × List Char) :=
  match readDigits cs with
  | ([], _) => Option.none
  | (d :: ds, rest) =>
    if d = '0' && !ds.isEmpty then Option.none
    else if fracStart rest then Option.none
    else some (digitsToNat (d :: ds), rest)

def parseNum (cs : List Char) : Option (Int × List Char) :=
  match cs with
  | [] => Option.none
  | c :: rest =>
    if c = '-' then (readJNat rest).map (fun p => (-(p.1 : Int), p.2))
    else (readJNat (c :: rest)).map (fun p => ((p.1 : Int), p.2))

def hexVal (c : Char) : Option Nat :=
  if c.isDigit then some (c.toNat - 48)
  else if 'a' ≤ c && c ≤ 'f' then some (c.toNat - 87)
  else if 'A' ≤ c && c ≤ 'F' then some (c.toNat - 55)
  else Option.none

/-- Value of four hex digits. -/
def hex4Val (h1 h2 h3 h4 : Char) : Option Nat :=
  match hexVal h1, hexVal h2, hexVal h3, hexVal h4 with
  | some a, some b, some c, some d => some (4096 * a + 256 * b + 16 * c + d)
  | _, _, _, _ => Option.none

/-- After a high surrogate of value `n`, read the low half of a
`\uXXXX\uXXXX` pair and combine. -/
def decodeLo (n : Nat) : List Char → Option (Char × List Char)
  | b :: u :: g1 :: g2 :: g3 :: g4 :: cs3 =>
    if b = '\\' && u = 'u' then
      match hex4Val g1 g2 g3 g4 with
      | some n2 =>
        if 56320 ≤ n2 && n2 ≤ 57343 then
          some (Char.ofNat (65536 + 1024 * (n - 55296) + (n2 - 56320)), cs3)
        else Option.none
      | Option.none => Option.none
    else Option.none
  | _ => Option.none

/-- Read the four hex digits of a `\uXXXX` escape; a high surrogate must
be followed by a low one. -/
def decodeU : List Char → Option (Char × List Char)
  | h1 :: h2 :: h3 :: h4 :: cs2 =>
    (match hex4Val h1 h2 h3 h4 with
     | some n =>
       if 55296 ≤ n && n ≤ 56319 then decodeLo n cs2
       else some (Char.ofNat n, cs2)
     | Option.none => Option.none)
  | _ => Option.none

/-- Decode one string escape (the characters after the backslash),
returning the decoded character and the remaining input. -/
def decodeEsc : List Char → Option (Char × List Char)
  | [] => Option.none
  | e :: cs1 =>
    if e = '"' then some ('"', cs1)
    else if e = '\\' then some ('\\', cs1)
    else if e = '/' then some ('/', cs1)
    else if e = 'b' then some ('\x08', cs1)
    else if e = 'f' then some ('\x0c', cs1)
    else if e = 'n' then some ('\n', cs1)
    else if e = 'r' then some ('\r', cs1)
    else if e = 't' then some ('\t', cs1)
    else if e = 'u' then decodeU cs1
    else Option.none

/-- Read the body of a JSON string (after the opening quote), decoding
escapes; surrogate pairs are combined.  Fuelled: every step consumes at
least one input character, so the input length is enough fuel. -/
def parseJStrAux (fuel : Nat) (acc : List Char) (cs : List Char) :
    Option (List Char × List Char) :=
  match fuel with
  | 0 => Option.none
  | fuel + 1 =>
    match cs with
    | [] => Option.none
    | c :: cs =>
      if c = '"' then some (acc.reverse, cs)
      else if c = '\\' then
        (match decodeEsc cs with
         | some (d, cs2) => parseJStrAux fuel (d :: acc) cs2
         | Option.none => Option.none)
      else parseJStrAux fuel (c :: acc) cs

def parseJStr (cs : List Char) : Option (List Char × List Char) :=
  parseJStrAux cs.length [] cs

mutual
def parseVal (fuel : Nat) (cs : List Char) : Option (PyVal × List Char) :=
  match fuel with
  | 0 => Option.none
  | fuel + 1 =>
    match skipWs cs with
    | [] => Option.none
    | c :: tl =>
      if c = 'n' then
        (match tl with
         | 'u' :: 'l' :: 'l' :: rest => some (.none, rest)
         | _ => Option.none)
      else if c = 't' then
        (match tl with
         | 'r' :: 'u' :: 'e' :: rest => some (.bool true, rest)
         | _ => Option.none)
      else if c = 'f' then
        (match tl with
         | 'a' :: 'l' :: 's' :: 'e' :: rest => some (.bool false, rest)
         | _ => Option.none)
      else if c = '"' then
        (parseJStr tl).map (fun p => (PyVal.str (String.mk p.1), p.2))
      else if c = '[' then
        (match skipWs tl with
         | [] => Option.none
         | c2 :: r2 =>
           if c2 = ']' then some (PyVal.list [], r2)
           else (parseElems fuel (c2 :: r2)).map (fun p => (PyVal.list p.1, p.2)))
      else if c = '\x7b' then
        (match skipWs tl with
         | [] => Option.none
         | c2 :: r2 =>
           if c2 = '\x7d' then some (PyVal.dict [], r2)
           else (parseFields fuel (c2 :: r2)).map (fun p => (PyVal.dict p.1, p.2)))
      else (parseNum (c :: tl)).map (fun p => (PyVal.int p.1, p.2))

def parseElems (fuel : Nat) (cs : List Char) : Option (List PyVal × List Char) :=
  match fuel with
  | 0 => Option.none
  | fuel + 1 =>
    match parseVal fuel cs with
    | Option.none => Option.none
    | some (v, rest) =>
      match skipWs rest with
      | [] => Option.none
      | c :: r2 =>
        if c = ',' then (parseElems fuel r2).map (fun p => (v :: p.1, p.2))
        else if c = ']' then some ([v], r2)
        else Option.none

def parseFields (fuel : Nat) (cs : List Char) :
    Option (List (String × PyVal) × List Char) :=
  match fuel with
  | 0 => Option.none
  | fuel + 1 =>
    match skipWs cs with
    | [] => Option.none
    | c :: tl =>
      if c = '"' then
        (match parseJStr tl with
         | Option.none => Option.none
         | some (kcs, rest1) =>
           match skipWs rest1 with
           | [] => Option.none
           | c2 :: rest2 =>
             if c2 = ':' then
               (match parseVal fuel rest2 with
                | Option.none => Option.none
                | some (v, rest3) =>
                  match skipWs rest3 with
                  | [] => Option.none
                  | c3 :: rest4 =>
                    if c3 = ',' then
                      (parseFields fuel rest4).map
                        (fun p => ((String.mk kcs, v) :: p.1, p.2))
                    else if c3 = '\x7d' then some ([(String.mk kcs, v)], rest4)
                    else Option.none)
             else Option.none)
      else Option.none
end

/-- `json.loads`: parse the whole string (trailing whitespace allowed),
`Option.none` standing for `json.JSONDecodeError`. -/
def jsonLoads (s : String) : Option PyVal :=
  match parseVal (2 * s.length + 2) s.data with
  | some (v, rest) => if skipWs rest = [] then some v else Option.none
  | Option.none => Option.none

example : jsonLoads "invalid json" = Option.none := by rfl
example : jsonLoads "5" = some (.int 5) := by rfl
example : jsonLoads "[]" = some (.list []) := by rfl
example : jsonLoads "[1, 2]" = some (.list [.int 1, .int 2]) := by rfl
example : jsonLoads " \"a b\" " = some (.str "a b") := by rfl
example :
    jsonLoads "[\x7b\"id\": 1, \"text\": \"hi\"\x7d]" =
      some (.list [.dict [("id", .int 1), ("text", .str "hi")]]) := by rfl
example : jsonLoads "1.5" = Option.none := by rfl
example : jsonLoads "[1" = Option.none := by rfl
example : jsonDumps (.list [.int 1, .int 2]) = "[1, 2]" := by rfl
example : jsonDumps (.list []) = "[]" := by rfl
example : jsonDumps (.list [.int (-3)]) = "[-3]" := by rfl
example : pyStr (.int 12) = "12" := by rfl
example : pyStr (.str " world") = " world" := by rfl
example : pyStrip "  a b " = "a b" := by rfl

/-! ## `src/app/utils/data_processor.py` -/

/-- `parse_messages_json` (lines 7-21): a string is JSON-decoded with
`JSONDecodeError` mapped to `[]`, a list passes through, anything else
gives `[]`.  A string holding valid non-array JSON decodes to that value,
which the Python function returns as-is. -/
def parse_messages_json (v : PyVal) : PyVal :=
  match v with
  | .str s =>
    (match jsonLoads s with
     | some x => x
     | Option.none => .list [])
  | .list xs => .list xs
  | _ => .list []

/-- One segment of a list-valued `text` field, as the inner generator
resolves it: a dict yields `t.get("text", "")`, anything else `str(t)`. -/
def resolveSegment (t : PyVal) : PyVal :=
  match t with
  | .dict fs => dGetD fs "text" (.str "")
  | t => .str (pyStr t)

/-- `" ".join` demands every element be a string (`TypeError` otherwise). -/
def asStrs : List PyVal → Option (List String)
  | [] => some []
  | .str s :: ts => (asStrs ts).map (fun ss => s :: ss)
  | _ :: _ => Option.none

/-- Lines 46-55: normalize a message `text` field to one string. -/
def textToStr (text : PyVal) : Except PyErr String :=
  match text with
  | .list ts =>
    (match asStrs (ts.map resolveSegment) with
     | some ss => .ok (pyJoin " " ss)
     | Option.none => .error .typeError)
  | .str s => .ok s
  | v => .ok (pyStr v)

/-- Numeric coercion performed by `min`/`max` against the running float
sentinels: ints and bools compare, anything else raises `TypeError`. -/
def pyNum (v : PyVal) : Except PyErr Int :=
  match v with
  | .int n => .ok n
  | .bool b => .ok (if b then 1 else 0)
  | _ => .error .typeError

/-- Running minimum where `Option.none` plays `float("inf")`. -/
def foldMin (acc : Option Int) (n : Int) : Int :=
  match acc with
  | some m => min m n
  | Option.none => n

/-- Running maximum where `Option.none` plays `float("-inf")`. -/
def foldMax (acc : Option Int) (n : Int) : Int :=
  match acc with
  | some m => max m n
  | Option.none => n

/-- The loop state of one row: collected per-message texts, the running
timestamp extrema, and the collected ids. -/
structure RowState where
  texts : List String
  minT : Option Int
  maxT : Option Int
  ids : List PyVal

def initState : RowState := ⟨[], Option.none, Option.none, []⟩

/-- The body of `for msg in messages` (lines 45-62): normalize and strip
the text, fold a truthy timestamp into the running extrema, collect a
truthy id. -/
def processMsg (st : RowState) (m : PyVal) : Except PyErr RowState :=
  match m with
  | .dict fs =>
    (match textToStr (dGetD fs "text" (.str "")) with
     | .error e => .error e
     | .ok text =>
       match (if pyTruthy (dGetD fs "date_unixtime" PyVal.none) = true
              then Except.map some (pyNum (dGetD fs "date_unixtime" PyVal.none))
              else .ok Option.none) with
       | .error e => .error e
       | .ok tv =>
         .ok ⟨st.texts ++ [pyStrip text],
              (match tv with
               | some n => some (foldMin st.minT n)
               | Option.none => st.minT),
              (match tv with
               | some n => some (foldMax st.maxT n)
               | Option.none => st.maxT),
              (if pyTruthy (dGetD fs "id" PyVal.none) = true
               then st.ids ++ [dGetD fs "id" PyVal.none]
               else st.ids)⟩)
  | _ => .error .attributeError

/-- Python iteration over the value `parse_messages_json` returned: lists
yield elements, strings their characters, dicts their keys; other values
raise `TypeError`. -/
def pyIterate (v : PyVal) : Except PyErr (List PyVal) :=
  match v with
  | .list xs => .ok xs
  | .str s => .ok (s.data.map (fun c => PyVal.str (String.mk [c])))
  | .dict fs => .ok (fs.map (fun p => PyVal.str p.1))
  | _ => .error .typeError

/-- One output document (lines 67-81). -/
structure Doc where
  content : String
  original_df_index : Nat
  start_time : Option Int
  end_time : Option Int
  message_ids : String
deriving DecidableEq

/-- Lines 64-82: join the non-empty texts with newlines; emit a document
only when the result is non-empty. -/
def buildDoc (index : Nat) (st : RowState) : Option Doc :=
  if pyJoin "\n" (st.texts.filter (fun s => s != "")) != "" then
    some ⟨pyJoin "\n" (st.texts.filter (fun s => s != "")), index,
      st.minT, st.maxT, jsonDumps (.list st.ids)⟩
  else Option.none

/-- The inner `for msg in messages` loop, threading the row state and
propagating the first exception. -/
def processMsgs : RowState → List PyVal → Except PyErr RowState
  | st, [] => .ok st
  | st, m :: ms =>
    match processMsg st m with
    | .error e => .error e
    | .ok st2 => processMsgs st2 ms

/-- The per-row body of `prepare_documents_from_df` (lines 35-82). -/
def processRow (index : Nat) (v : PyVal) : Except PyErr (Option Doc) :=
  let messages := parse_messages_json v
  if pyTruthy messages then
    match pyIterate messages with
    | .error e => .error e
    | .ok msgs =>
      match processMsgs initState msgs with
      | .error e => .error e
      | .ok st => .ok (buildDoc index st)
  else .ok Option.none

/-- The input table: its column schema and its rows (each an association
list from column name to value).  `iterrows` indices are the default
positional `RangeIndex`. -/
structure DataFrame where
  columns : List String
  data : List (List (String × PyVal))

def rowGet (row : List (String × PyVal)) (c : String) : PyVal := dGetD row c .none

/-- One iteration of the row loop: accumulate the row's document, if any. -/
def rowStep (docs : List Doc) (p : Nat × List (String × PyVal)) :
    Except PyErr (List Doc) :=
  match processRow p.1 (rowGet p.2 "messages_json") with
  | .error e => .error e
  | .ok (some d) => .ok (docs ++ [d])
  | .ok Option.none => .ok docs

/-- The outer `for index, row in df.iterrows()` loop. -/
def processRows : List Doc → List (Nat × List (String × PyVal)) → Except PyErr (List Doc)
  | docs, [] => .ok docs
  | docs, p :: ps =>
    match rowStep docs p with
    | .error e => .error e
    | .ok docs2 => processRows docs2 ps

/-- `prepare_documents_from_df` (lines 24-83). -/
def prepare_documents_from_df (df : DataFrame) : Except PyErr (List Doc) :=
  if "messages_json" ∈ df.columns then
    processRows [] df.data.enum
  else .error .valueError

/-! ### Pure mirrors of the per-message computation

Total functions that agree with the monadic code wherever it succeeds;
used to state what the emitted documents contain. -/

def msgFields : PyVal → List (String × PyVal)
  | .dict fs => fs
  | _ => []

def segStr (t : PyVal) : String :=
  match t with
  | .dict fs => (match dGetD fs "text" (.str "") with | .str s => s | _ => "")
  | t => pyStr t

/-- The string the text-normalization step produces for a `text` value of
the documented shape. -/
def normTextV (tv : PyVal) : String :=
  match tv with
  | .list ts => pyJoin " " (ts.map segStr)
  | .str s => s
  | v => pyStr v

def normTextF (fs : List (String × PyVal)) : String :=
  normTextV (dGetD fs "text" (.str ""))

/-- The trimmed text a message contributes to `content`. -/
def trimTextM (m : PyVal) : String := pyStrip (normTextF (msgFields m))

def msgTimeF (fs : List (String × PyVal)) : Option Int :=
  let dv := dGetD fs "date_unixtime" .none
  if pyTruthy dv then
    (match dv with
     | .int n => some n
     | .bool b => some (if b then 1 else 0)
     | _ => Option.none)
  else Option.none

/-- The timestamp a message folds into the running extrema, if any. -/
def msgTimeM (m : PyVal) : Option Int := msgTimeF (msgFields m)

def msgIdsF (fs : List (String × PyVal)) : List PyVal :=
  let iv := dGetD fs "id" .none
  if pyTruthy iv then [iv] else []

/-- The ids a message contributes (none, or its truthy `id`). -/
def msgIdsM (m : PyVal) : List PyVal := msgIdsF (msgFields m)

/-- The truthy timestamps of a message sequence, in order. -/
def timesOf (msgs : List PyVal) : List Int := msgs.filterMap msgTimeM

/-- The truthy ids of a message sequence, in order. -/
def idsOf (msgs : List PyVal) : List PyVal := (msgs.map msgIdsM).flatten

/-- Pure counterpart of `processMsg`. -/
def pureStep (st : RowState) (m : PyVal) : RowState :=
  ⟨st.texts ++ [trimTextM m],
   (match msgTimeM m with | some n => some (foldMin st.minT n) | Option.none => st.minT),
   (match msgTimeM m with | some n => some (foldMax st.maxT n) | Option.none => st.maxT),
   st.ids ++ msgIdsM m⟩

/-- Pure counterpart of `processRow` on rows that process without error. -/
def rowDocPure (i : Nat) (v : PyVal) : Option Doc :=
  match parse_messages_json v with
  | .list msgs =>
    if msgs.isEmpty then Option.none
    else buildDoc i (msgs.foldl pureStep initState)
  | _ => Option.none

/-! ### Shape of the documented message data model (spec section 3) -/

/-- A list-text segment the code can join: a dict whose `text` entry is a
string, or any non-dict value (those are stringified). -/
def segOk (t : PyVal) : Bool :=
  match t with
  | .dict fs => (match dGetD fs "text" (.str "") with | .str _ => true | _ => false)
  | _ => true

def textOkV (tv : PyVal) : Bool :=
  match tv with
  | .list ts => ts.all segOk
  | _ => true

def timeOkV (dv : PyVal) : Bool :=
  match dv with
  | .int _ => true
  | .bool _ => true
  | v => !pyTruthy v

/-- A message of the documented shape: a dict whose `text` is joinable and
whose `date_unixtime`, when truthy, is numeric. -/
def msgOk (m : PyVal) : Bool :=
  match m with
  | .dict fs => textOkV (dGetD fs "text" (.str "")) && timeOkV (dGetD fs "date_unixtime" .none)
  | _ => false

/-! ## HTTP error flow: `search_weaviate`, `get_chat_completion`,
`query_endpoint`

External calls are oracles: each is the outcome the external service
produced (`ok` a value, or `raise` an exception). -/

inductive ExtOutcome (α : Type) where
  | ok (a : α)
  | raise

/-- One object returned by the vector-store query. -/
structure RetrievedDoc where
  content : String
  original_df_index : Option Nat
  distance : Option Int
deriving DecidableEq

/-- One entry of `retrieved_contexts` in the response. -/
structure SimplifiedCtx where
  content_preview : String
  original_df_index : Option Nat
  distance : Option Int
deriving DecidableEq

def previewOf (d : RetrievedDoc) : SimplifiedCtx :=
  ⟨d.content.take 200 ++ "...", d.original_df_index, d.distance⟩

/-- `search_weaviate` (weaviate_utils.py lines 147-178): the embedding call
sits outside the `try`, so its exception propagates; a failure of the
vector-store query itself is caught and becomes an empty hit list. -/
def search_weaviate (embed : ExtOutcome (List Int))
    (queryRes : ExtOutcome (List RetrievedDoc)) : ExtOutcome (List RetrievedDoc) :=
  match embed with
  | .raise => .raise
  | .ok _ =>
    match queryRes with
    | .ok hits => .ok hits
    | .raise => .ok []

/-- `get_chat_completion` (openai_utils.py lines 37-76): a completion
failure is caught and becomes a static apology string. -/
def get_chat_completion (completion : ExtOutcome (Option String)) : String :=
  match completion with
  | .ok content =>
    (match content with
     | some c => if c != "" then pyStrip c else "No response received."
     | Option.none => "No response received.")
  | .raise => "Sorry, I encountered an error while generating a response."

inductive HttpResult where
  | response (answer : String) (contexts : List SimplifiedCtx)
  | httpError (status : Nat)
deriving DecidableEq

/-- `query_endpoint` (main.py lines 170-220). -/
def query_endpoint (clientUp : Bool) (embed : ExtOutcome (List Int))
    (queryRes : ExtOutcome (List RetrievedDoc))
    (completion : ExtOutcome (Option String)) : HttpResult :=
  if !clientUp then .httpError 503
  else
    match search_weaviate embed queryRes with
    | .raise => .httpError 500
    | .ok [] =>
      .response ("No relevant context found. General knowledge answer: "
        ++ get_chat_completion completion) []
    | .ok docs => .response (get_chat_completion completion) (docs.map previewOf)


/-! ## Round-trip lemmas: decimal printing parses back -/

theorem digitCh_facts : ∀ d, d < 10 → (digitCh d).isDigit = true ∧
    (digitCh d).toNat - 48 = d ∧ digitCh d ≠ '-' ∧ digitCh d ≠ '.' ∧
    digitCh d ≠ 'e' ∧ digitCh d ≠ 'E' ∧ (d ≠ 0 → digitCh d ≠ '0') := by
  decide

theorem natCharsAux_digits : ∀ fuel m c, c ∈ natCharsAux fuel m → c.isDigit = true := by
  intro fuel
  induction fuel with
  | zero => intro m c h; simp [natCharsAux] at h
  | succ fuel ih =>
    intro m c h
    by_cases hm : m = 0
    · simp [natCharsAux, hm] at h
    · rw [natCharsAux, if_neg hm] at h
      rcases List.mem_append.mp h with h1 | h1
      · exact ih _ _ h1
      · have hc : c = digitCh (m % 10) := by simpa using h1
        subst hc
        exact (digitCh_facts _ (Nat.mod_lt _ (by norm_num))).1

theorem natCharsAux_val : ∀ fuel m, m ≤ fuel → m ≠ 0 →
    ∀ a, List.foldl (fun a c => 10 * a + (c.toNat - 48)) a (natCharsAux fuel m) =
      a * 10 ^ (natCharsAux fuel m).length + m := by
  intro fuel
  induction fuel with
  | zero => intro m hm hm0 a; exact absurd (Nat.le_zero.mp hm) hm0
  | succ fuel ih =>
    intro m hm hm0 a
    rw [natCharsAux, if_neg hm0, List.foldl_append]
    have hlt : m % 10 < 10 := Nat.mod_lt _ (by norm_num)
    have hval : (digitCh (m % 10)).toNat - 48 = m % 10 := (digitCh_facts _ hlt).2.1
    have hdm : 10 * (m / 10) + m % 10 = m := Nat.div_add_mod m 10
    by_cases h10 : m / 10 = 0
    · have hz : natCharsAux fuel (m / 10) = [] := by
        rw [h10]; cases fuel <;> simp [natCharsAux]
      simp only [hz, List.foldl_nil, List.foldl_cons, List.nil_append,
        List.length_cons, List.length_nil, hval, pow_succ, pow_zero]
      omega
    · have hlt2 : m / 10 < m := Nat.div_lt_self (by omega) (by norm_num)
      have hle : m / 10 ≤ fuel := by omega
      simp only [List.foldl_cons, List.foldl_nil, ih (m / 10) hle h10 a, hval,
        List.length_append, List.length_cons, List.length_nil]
      set q := m / 10 with hq
      set r := m % 10 with hr
      set L := (natCharsAux fuel q).length with hL
      rw [← hdm]
      ring

theorem natChars_val (m : Nat) : digitsToNat (natChars m) = m := by
  by_cases hm : m = 0
  · subst hm; decide
  · rw [natChars, if_neg hm, digitsToNat, natCharsAux_val (m + 1) m (by omega) hm 0]
    ring

theorem natChars_digits (m : Nat) : ∀ c ∈ natChars m, c.isDigit = true := by
  by_cases hm : m = 0
  · subst hm; decide
  · rw [natChars, if_neg hm]
    exact fun c hc => natCharsAux_digits _ _ _ hc

theorem natCharsAux_head : ∀ fuel m, m ≤ fuel → m ≠ 0 →
    ∃ c cs, natCharsAux fuel m = c :: cs ∧ c ≠ '0' := by
  intro fuel
  induction fuel with
  | zero => intro m hm hm0; exact absurd (Nat.le_zero.mp hm) hm0
  | succ fuel ih =>
    intro m hm hm0
    rw [natCharsAux, if_neg hm0]
    by_cases h10 : m / 10 = 0
    · have hz : natCharsAux fuel (m / 10) = [] := by
        rw [h10]; cases fuel <;> simp [natCharsAux]
      have hmod : m % 10 = m := by omega
      refine ⟨digitCh (m % 10), [], by simp [hz], ?_⟩
      exact (digitCh_facts (m % 10) (Nat.mod_lt _ (by norm_num))).2.2.2.2.2.2
        (by omega)
    · have hle : m / 10 ≤ fuel := by
        have := Nat.div_lt_self (show 0 < m by omega) (show 1 < 10 by norm_num)
        omega
      obtain ⟨c, cs, hcc, hc0⟩ := ih (m / 10) hle h10
      exact ⟨c, cs ++ [digitCh (m % 10)], by rw [hcc]; rfl, hc0⟩

theorem natChars_cons (m : Nat) :
    ∃ c cs, natChars m = c :: cs ∧ c.isDigit = true ∧ (m ≠ 0 → c ≠ '0') := by
  by_cases hm : m = 0
  · subst hm; exact ⟨'0', [], rfl, by decide, by simp⟩
  · rw [natChars, if_neg hm]
    obtain ⟨c, cs, hcc, hc0⟩ := natCharsAux_head (m + 1) m (by omega) hm
    refine ⟨c, cs, hcc, ?_, fun _ => hc0⟩
    exact natCharsAux_digits _ _ _ (by rw [hcc]; exact List.mem_cons_self c cs)

theorem readDigits_append : ∀ ds rest, (∀ c ∈ ds, c.isDigit = true) →
    (∀ c cs, rest = c :: cs → c.isDigit = false) →
    readDigits (ds ++ rest) = (ds, rest) := by
  intro ds
  induction ds with
  | nil =>
    intro rest _ hrest
    cases rest with
    | nil => rfl
    | cons c cs => simp [readDigits, hrest c cs rfl]
  | cons d ds ih =>
    intro rest hds hrest
    have hd : d.isDigit = true := hds d (List.mem_cons_self d ds)
    have htail := ih rest (fun c hc => hds c (List.mem_cons_of_mem d hc)) hrest
    simp [readDigits, hd, htail]

theorem readJNat_natChars (m : Nat) (rest : List Char)
    (hrest : ∀ c cs, rest = c :: cs →
      c.isDigit = false ∧ c ≠ '.' ∧ c ≠ 'e' ∧ c ≠ 'E') :
    readJNat (natChars m ++ rest) = some (m, rest) := by
  obtain ⟨c, cs, hcc, hdig, hc0⟩ := natChars_cons m
  have h1 : readDigits (natChars m ++ rest) = (natChars m, rest) :=
    readDigits_append _ _ (natChars_digits m) (fun c cs h => (hrest c cs h).1)
  have hfrac : fracStart rest = false := by
    cases rest with
    | nil => rfl
    | cons c2 cs2 =>
      obtain ⟨_, h2, h3, h4⟩ := hrest c2 cs2 rfl
      simp [fracStart, h2, h3, h4]
  have hlead : (decide (c = '0') && !cs.isEmpty) = false := by
    by_cases hm : m = 0
    · subst hm
      have hz : natChars 0 = ['0'] := rfl
      rw [hz] at hcc
      injection hcc with h1 h2
      subst h1; subst h2
      decide
    · simp [hc0 hm]
  rw [readJNat, h1, hcc]
  simp [hlead, hfrac, ← hcc, natChars_val]

theorem parseNum_intRepr (n : Int) (rest : List Char)
    (hrest : ∀ c cs, rest = c :: cs →
      c.isDigit = false ∧ c ≠ '.' ∧ c ≠ 'e' ∧ c ≠ 'E') :
    parseNum (intRepr n ++ rest) = some (n, rest) := by
  by_cases hn : n < 0
  · rw [intRepr, if_pos hn, List.cons_append, parseNum, if_pos rfl,
      readJNat_natChars n.natAbs rest hrest]
    simp only [Option.map_some']
    congr 1
    rw [Prod.mk.injEq]
    exact ⟨by omega, rfl⟩
  · rw [intRepr, if_neg hn]
    obtain ⟨c, cs, hcc, hdig, _⟩ := natChars_cons n.natAbs
    have hdash : ¬ c = '-' := by
      intro h; subst h; exact absurd hdig (by decide)
    rw [hcc, List.cons_append, parseNum, if_neg hdash, ← List.cons_append,
      ← hcc, readJNat_natChars n.natAbs rest hrest]
    simp only [Option.map_some']
    congr 1
    rw [Prod.mk.injEq]
    exact ⟨by omega, rfl⟩

theorem intRepr_ne_nil (n : Int) : intRepr n ≠ [] := by
  obtain ⟨c, cs, hcc, _, _⟩ := natChars_cons n.natAbs
  rw [intRepr]
  by_cases hn : n < 0
  · simp [hn]
  · simp [hn, hcc]

/-! ## Round-trip: `jsonLoads` recovers what `jsonDumps` wrote

Proved for every modelled value, so the `message_ids` guarantee holds for
ids of any type. -/

theorem hexVal_hexCh : ∀ d, d < 16 → hexVal (hexCh d) = some d := by decide

theorem hex4_val (n : Nat) (h : n < 65536) :
    4096 * (n / 4096 % 16) + 256 * (n / 256 % 16) + 16 * (n / 16 % 16)
      + n % 16 = n := by
  omega

theorem char_valid_ranges (c : Char) :
    c.toNat < 55296 ∨ (57343 < c.toNat ∧ c.toNat < 1114112) := by
  rcases c.valid with h | ⟨h1, h2⟩
  · left; exact h
  · right; exact ⟨h1, h2⟩

theorem skipWs_not_ws {c : Char} {l : List Char} (h : jsonWs c = false) :
    skipWs (c :: l) = c :: l := by
  simp [skipWs, List.dropWhile_cons, h]

theorem skipWs_ws {c : Char} {l : List Char} (h : jsonWs c = true) :
    skipWs (c :: l) = skipWs l := by
  simp [skipWs, List.dropWhile_cons, h]

/-- The characters that may legitimately follow a serialized number. -/
def numStop (rest : List Char) : Prop :=
  ∀ c tl, rest = c :: tl →
    c.isDigit = false ∧ c ≠ '.' ∧ c ≠ 'e' ∧ c ≠ 'E'

theorem numStop_nil : numStop [] := fun _ _ h => List.noConfusion h

theorem numStop_cons {c : Char} {tl : List Char}
    (h : c.isDigit = false ∧ c ≠ '.' ∧ c ≠ 'e' ∧ c ≠ 'E') :
    numStop (c :: tl) := by
  intro c2 tl2 heq
  injection heq with h1 _
  exact h1 ▸ h

theorem digit_not_special {c : Char} (h : c.isDigit = true) :
    jsonWs c = false ∧ c ≠ ']' ∧ c ≠ '\x7d' ∧ c ≠ 'n' ∧ c ≠ 't' ∧
    c ≠ 'f' ∧ c ≠ '"' ∧ c ≠ '[' ∧ c ≠ '\x7b' := by
  refine ⟨?_, ?_, ?_, ?_, ?_, ?_, ?_, ?_, ?_⟩
  · cases hw : jsonWs c with
    | false => rfl
    | true =>
      rw [jsonWs] at hw
      rcases (by simpa using hw :
          ((c = ' ' ∨ c = '\t') ∨ c = '\n') ∨ c = '\r')
        with ((rfl | rfl) | rfl) | rfl <;> simp at h
  all_goals intro heq; subst heq; simp at h

/-! ### How much fuel the reader needs per value -/

mutual
def costV : PyVal → Nat
  | .none => 1
  | .bool _ => 1
  | .int _ => 1
  | .str _ => 1
  | .list xs => 2 + costE xs
  | .dict fs => 2 + costF fs

def costE : List PyVal → Nat
  | [] => 0
  | x :: t => 2 + costV x + costE t

def costF : List (String × PyVal) → Nat
  | [] => 0
  | (_, v) :: t => 2 + costV v + costF t
end

theorem costV_pos (v : PyVal) : 1 ≤ costV v := by
  cases v <;> simp [costV] <;> omega

/-! ### The string reader undoes the string writer -/

theorem hex4Val_hex4 (n : Nat) (h : n < 65536) :
    hex4Val (hexCh (n / 4096 % 16)) (hexCh (n / 256 % 16))
      (hexCh (n / 16 % 16)) (hexCh (n % 16)) = some n := by
  rw [hex4Val, hexVal_hexCh _ (Nat.mod_lt _ (by norm_num)),
    hexVal_hexCh _ (Nat.mod_lt _ (by norm_num)),
    hexVal_hexCh _ (Nat.mod_lt _ (by norm_num)),
    hexVal_hexCh _ (Nat.mod_lt _ (by norm_num))]
  exact congrArg some (hex4_val n h)

theorem decodeU_hex4 (n : Nat) (tail : List Char) (h65 : n < 65536)
    (hns : n < 55296 ∨ 56319 < n) :
    decodeU (hex4 n ++ tail) = some (Char.ofNat n, tail) := by
  have hcond : (decide (55296 ≤ n) && decide (n ≤ 56319)) = false := by
    simp only [Bool.and_eq_false_iff, decide_eq_false_iff_not]
    omega
  rw [hex4]
  show decodeU (hexCh (n / 4096 % 16) :: hexCh (n / 256 % 16) ::
    hexCh (n / 16 % 16) :: hexCh (n % 16) :: tail) = some (Char.ofNat n, tail)
  rw [decodeU, hex4Val_hex4 n h65]
  simp [hcond]

theorem decodeLo_hex4 (n n2 : Nat) (tail : List Char) (h65 : n2 < 65536)
    (hlo : 56320 ≤ n2 ∧ n2 ≤ 57343) :
    decodeLo n ('\\' :: 'u' :: (hex4 n2 ++ tail)) =
      some (Char.ofNat (65536 + 1024 * (n - 55296) + (n2 - 56320)), tail) := by
  have hcond : (decide (56320 ≤ n2) && decide (n2 ≤ 57343)) = true := by
    simp only [Bool.and_eq_true, decide_eq_true_eq]
    omega
  rw [hex4]
  simp only [List.cons_append, List.nil_append]
  rw [decodeLo, hex4Val_hex4 n2 h65]
  simp [hcond]

set_option maxRecDepth 4000 in
theorem decodeU_pair (n : Nat) (tail : List Char) (h1 : 65536 ≤ n)
    (h2 : n < 1114112) :
    decodeU (hex4 (55296 + (n - 65536) / 1024) ++
      ('\\' :: 'u' :: (hex4 (56320 + (n - 65536) % 1024) ++ tail))) =
      some (Char.ofNat n, tail) := by
  have hhim : (n - 65536) / 1024 < 1024 := by omega
  have hhi : 55296 + (n - 65536) / 1024 < 65536 := by omega
  have hcond : (decide (55296 ≤ 55296 + (n - 65536) / 1024) &&
      decide (55296 + (n - 65536) / 1024 ≤ 56319)) = true := by
    simp only [Bool.and_eq_true, decide_eq_true_eq]
    omega
  have hlo65 : 56320 + (n - 65536) % 1024 < 65536 := by
    have := Nat.mod_lt (n - 65536) (show 0 < 1024 by norm_num)
    omega
  rw [hex4]
  simp only [List.cons_append, List.nil_append]
  rw [decodeU, hex4Val_hex4 _ hhi]
  simp only [hcond, if_true]
  rw [decodeLo_hex4 (55296 + (n - 65536) / 1024) _ tail hlo65
    ⟨by omega, by have := Nat.mod_lt (n - 65536) (show 0 < 1024 by norm_num); omega⟩]
  have harith : 65536 + 1024 * (55296 + (n - 65536) / 1024 - 55296) +
      (56320 + (n - 65536) % 1024 - 56320) = n := by
    have hdm := Nat.div_add_mod (n - 65536) 1024
    omega
  rw [harith]

theorem parseJStrAux_quote (f : Nat) (acc cs : List Char) :
    parseJStrAux (f + 1) acc ('"' :: cs) = some (acc.reverse, cs) := rfl

theorem parseJStrAux_esc (f : Nat) (acc : List Char) (e : List Char) (d : Char)
    (cs2 : List Char) (hd : decodeEsc e = some (d, cs2)) :
    parseJStrAux (f + 1) acc ('\\' :: e) = parseJStrAux f (d :: acc) cs2 := by
  rw [parseJStrAux]
  simp [hd]

theorem parseJStrAux_plain (f : Nat) (acc : List Char) (c : Char) (cs : List Char)
    (h1 : c ≠ '"') (h2 : c ≠ '\\') :
    parseJStrAux (f + 1) acc (c :: cs) = parseJStrAux f (c :: acc) cs := by
  rw [parseJStrAux]
  rw [if_neg h1, if_neg h2]

theorem decodeEsc_u (t : List Char) : decodeEsc ('u' :: t) = decodeU t := rfl

theorem escStep (c : Char) (f : Nat) (acc tail : List Char) :
    parseJStrAux (f + 1) acc (jsonEscapeChar c ++ tail) =
      parseJStrAux f (c :: acc) tail := by
  by_cases h1 : c = '"'
  · subst h1
    exact parseJStrAux_esc f acc _ '"' tail rfl
  by_cases h2 : c = '\\'
  · subst h2
    exact parseJStrAux_esc f acc _ '\\' tail rfl
  by_cases h3 : c = '\n'
  · subst h3
    exact parseJStrAux_esc f acc _ '\n' tail rfl
  by_cases h4 : c = '\r'
  · subst h4
    exact parseJStrAux_esc f acc _ '\r' tail rfl
  by_cases h5 : c = '\t'
  · subst h5
    exact parseJStrAux_esc f acc _ '\t' tail rfl
  by_cases h6 : c = '\x08'
  · subst h6
    exact parseJStrAux_esc f acc _ '\x08' tail rfl
  by_cases h7 : c = '\x0c'
  · subst h7
    exact parseJStrAux_esc f acc _ '\x0c' tail rfl
  by_cases h8 : c.toNat < 32 || c.toNat > 126
  · by_cases h9 : c.toNat ≤ 65535
    · have hesc : jsonEscapeChar c = '\\' :: 'u' :: hex4 c.toNat := by
        rw [jsonEscapeChar, if_neg h1, if_neg h2, if_neg h3, if_neg h4,
          if_neg h5, if_neg h6, if_neg h7]
        simp [h8, h9]
      rw [hesc]
      simp only [List.cons_append]
      refine parseJStrAux_esc f acc _ c tail ?_
      rw [decodeEsc_u]
      have hns : c.toNat < 55296 ∨ 56319 < c.toNat := by
        rcases char_valid_ranges c with h | ⟨h, _⟩
        · left; exact h
        · right; omega
      rw [decodeU_hex4 c.toNat tail (by omega) hns, Char.ofNat_toNat]
    · have hbig : 65536 ≤ c.toNat := by omega
      have hlt : c.toNat < 1114112 := by
        rcases char_valid_ranges c with h | ⟨_, h⟩
        · omega
        · exact h
      have hesc : jsonEscapeChar c =
          '\\' :: 'u' :: hex4 (55296 + (c.toNat - 65536) / 1024) ++
          '\\' :: 'u' :: hex4 (56320 + (c.toNat - 65536) % 1024) := by
        rw [jsonEscapeChar, if_neg h1, if_neg h2, if_neg h3, if_neg h4,
          if_neg h5, if_neg h6, if_neg h7]
        simp [h8, h9]
      rw [hesc]
      simp only [List.cons_append, List.append_assoc]
      refine parseJStrAux_esc f acc _ c tail ?_
      rw [decodeEsc_u]
      rw [decodeU_pair c.toNat tail hbig hlt, Char.ofNat_toNat]
  · have hesc : jsonEscapeChar c = [c] := by
      rw [jsonEscapeChar, if_neg h1, if_neg h2, if_neg h3, if_neg h4,
        if_neg h5, if_neg h6, if_neg h7, if_neg (by simpa using h8)]
    rw [hesc]
    simp only [List.cons_append, List.nil_append]
    exact parseJStrAux_plain f acc c tail h1 h2

theorem escChar_ne_nil (c : Char) : jsonEscapeChar c ≠ [] := by
  rw [jsonEscapeChar]
  repeat' split
  all_goals simp

theorem escLen (cs : List Char) :
    cs.length ≤ ((cs.map jsonEscapeChar).flatten).length := by
  induction cs with
  | nil => simp
  | cons c t ih =>
    have h1 : 1 ≤ (jsonEscapeChar c).length :=
      Nat.one_le_iff_ne_zero.mpr
        (fun h => escChar_ne_nil c (List.length_eq_zero.mp h))
    simp only [List.map_cons, List.flatten_cons, List.length_append,
      List.length_cons]
    omega

theorem parseJStrAux_escape : ∀ (cs : List Char) (fuel : Nat)
    (acc rest : List Char), cs.length < fuel →
    parseJStrAux fuel acc ((cs.map jsonEscapeChar).flatten ++ '"' :: rest) =
      some (acc.reverse ++ cs, rest) := by
  intro cs
  induction cs with
  | nil =>
    intro fuel acc rest hf
    cases fuel with
    | zero => omega
    | succ f =>
      simp only [List.map_nil, List.flatten_nil, List.nil_append]
      rw [parseJStrAux_quote]
      simp
  | cons c t ih =>
    intro fuel acc rest hf
    cases fuel with
    | zero => simp at hf
    | succ f =>
      simp only [List.map_cons, List.flatten_cons, List.append_assoc]
      rw [escStep]
      rw [ih f (c :: acc) rest (by simp at hf; omega)]
      simp

theorem parseJStr_escape (s : List Char) (rest : List Char) :
    parseJStr ((s.map jsonEscapeChar).flatten ++ '"' :: rest) =
      some (s, rest) := by
  rw [parseJStr]
  have hlen := escLen s
  have := parseJStrAux_escape s
    (((s.map jsonEscapeChar).flatten ++ '"' :: rest).length) [] rest
    (by simp only [List.length_append, List.length_cons]; omega)
  simpa using this

/-! ### Fuel bounds and head characters of the writer's output -/

mutual
theorem costV_le (v : PyVal) : costV v ≤ 2 * (dumpChars v).length := by
  match v with
  | .none => simp [costV, dumpChars]
  | .bool b => cases b <;> simp [costV, dumpChars]
  | .int n =>
    have h := List.length_pos.mpr (intRepr_ne_nil n)
    simp only [costV, dumpChars]
    omega
  | .str s =>
    simp only [costV, dumpChars, jsonEscape, List.length_cons,
      List.length_append]
    omega
  | .list xs =>
    have h := costE_le xs
    simp only [costV, dumpChars, List.length_cons, List.length_append]
    omega
  | .dict fs =>
    have h := costF_le fs
    simp only [costV, dumpChars, List.length_cons, List.length_append]
    omega

theorem costE_le (xs : List PyVal) : costE xs ≤ 2 * (dumpList xs).length + 2 := by
  match xs with
  | [] => simp [costE, dumpList]
  | [x] =>
    have h := costV_le x
    simp only [costE, dumpList]
    omega
  | x :: y :: t =>
    have h1 := costV_le x
    have h2 := costE_le (y :: t)
    rw [costE]
    simp only [dumpList, List.length_append, List.length_cons]
    omega

theorem costF_le (fs : List (String × PyVal)) :
    costF fs ≤ 2 * (dumpFields fs).length + 2 := by
  match fs with
  | [] => simp [costF, dumpFields]
  | [(k, v)] =>
    have h := costV_le v
    simp only [costF, dumpFields, List.length_append, List.length_cons]
    omega
  | (k, v) :: g :: t =>
    have h1 := costV_le v
    have h2 := costF_le (g :: t)
    rw [costF]
    simp only [dumpFields, List.length_append, List.length_cons]
    omega
end

theorem intRepr_head (n : Int) : ∃ c tl, intRepr n = c :: tl ∧
    jsonWs c = false ∧ c ≠ ']' ∧ c ≠ '\x7d' ∧ c ≠ 'n' ∧ c ≠ 't' ∧ c ≠ 'f' ∧
    c ≠ '"' ∧ c ≠ '[' ∧ c ≠ '\x7b' := by
  rw [intRepr]
  by_cases hn : n < 0
  · rw [if_pos hn]
    exact ⟨'-', natChars n.natAbs, rfl, by decide⟩
  · rw [if_neg hn]
    obtain ⟨c, cs, hcc, hdig, _⟩ := natChars_cons n.natAbs
    exact ⟨c, cs, hcc, digit_not_special hdig⟩

theorem dumpChars_head (v : PyVal) : ∃ c tl, dumpChars v = c :: tl ∧
    jsonWs c = false ∧ c ≠ ']' ∧ c ≠ '\x7d' := by
  cases v with
  | none => exact ⟨'n', "ull".data, rfl, by decide⟩
  | bool b =>
    cases b with
    | true => exact ⟨'t', "rue".data, rfl, by decide⟩
    | false => exact ⟨'f', "alse".data, rfl, by decide⟩
  | int n =>
    obtain ⟨c, tl, hcc, h1, h2, h3, _⟩ := intRepr_head n
    exact ⟨c, tl, hcc, h1, h2, h3⟩
  | str s =>
    exact ⟨'"', (s.data.map jsonEscapeChar).flatten ++ ['"'], rfl, by decide⟩
  | list xs => exact ⟨'[', dumpList xs ++ [']'], rfl, by decide⟩
  | dict fs => exact ⟨'\x7b', dumpFields fs ++ ['\x7d'], rfl, by decide⟩

theorem dumpList_head (x : PyVal) (xs : List PyVal) : ∃ c tl,
    dumpList (x :: xs) = c :: tl ∧ jsonWs c = false ∧ c ≠ ']' ∧ c ≠ '\x7d' := by
  obtain ⟨c, tl, hcc, h⟩ := dumpChars_head x
  cases xs with
  | nil => exact ⟨c, tl, by simp only [dumpList]; exact hcc, h⟩
  | cons y ys =>
    refine ⟨c, tl ++ ',' :: ' ' :: dumpList (y :: ys), ?_, h⟩
    simp only [dumpList, hcc, List.cons_append]

theorem dumpFields_head (k : String) (v : PyVal) (fs : List (String × PyVal)) :
    ∃ tl, dumpFields ((k, v) :: fs) = '"' :: tl := by
  cases fs with
  | nil =>
    refine ⟨((k.data.map jsonEscapeChar).flatten ++ ['"']) ++
      ':' :: ' ' :: dumpChars v, ?_⟩
    simp only [dumpFields, jsonEscape, List.cons_append]
  | cons g gs =>
    refine ⟨((k.data.map jsonEscapeChar).flatten ++ ['"']) ++
      ':' :: ' ' :: (dumpChars v ++ ',' :: ' ' :: dumpFields (g :: gs)), ?_⟩
    simp only [dumpFields, jsonEscape, List.cons_append, List.append_assoc]

/-! ### The reader undoes the writer, given enough fuel -/

theorem parse_dump : ∀ fuel : Nat,
    (∀ v cs rest, skipWs cs = dumpChars v ++ rest → costV v ≤ fuel →
      numStop rest → parseVal fuel cs = some (v, rest)) ∧
    (∀ xs cs rest, xs ≠ [] → skipWs cs = dumpList xs ++ ']' :: rest →
      costE xs + 1 ≤ fuel → numStop rest →
      parseElems fuel cs = some (xs, rest)) ∧
    (∀ fs cs rest, fs ≠ [] → skipWs cs = dumpFields fs ++ '\x7d' :: rest →
      costF fs + 1 ≤ fuel → numStop rest →
      parseFields fuel cs = some (fs, rest)) := by
  intro fuel
  induction fuel with
  | zero =>
    refine ⟨fun v cs rest h1 hc h2 => ?_, fun xs cs rest h0 h1 hc h2 => ?_,
      fun fs cs rest h0 h1 hc h2 => ?_⟩
    · have := costV_pos v; omega
    · omega
    · omega
  | succ fuel ih =>
    obtain ⟨ihP, ihQ, ihR⟩ := ih
    refine ⟨?_, ?_, ?_⟩
    · intro v cs rest hskip hcost hstop
      cases v with
      | none =>
        have hcs : skipWs cs = 'n' :: ('u' :: 'l' :: 'l' :: rest) := by
          rw [hskip]; rfl
        rw [parseVal, hcs]; rfl
      | bool b =>
        cases b with
        | true =>
          have hcs : skipWs cs = 't' :: ('r' :: 'u' :: 'e' :: rest) := by
            rw [hskip]; rfl
          rw [parseVal, hcs]; rfl
        | false =>
          have hcs : skipWs cs = 'f' :: ('a' :: 'l' :: 's' :: 'e' :: rest) := by
            rw [hskip]; rfl
          rw [parseVal, hcs]; rfl
      | int n =>
        obtain ⟨c0, tl0, hi0, hw0, hrb0, hcb0, hn0, ht0, hf0, hq0, hlb0, hbr0⟩ :=
          intRepr_head n
        have hcs : skipWs cs = c0 :: (tl0 ++ rest) := by
          rw [hskip]
          simp only [dumpChars, hi0, List.cons_append]
        rw [parseVal, hcs]
        simp only [if_neg hn0, if_neg ht0, if_neg hf0, if_neg hq0,
          if_neg hlb0, if_neg hbr0]
        rw [show c0 :: (tl0 ++ rest) = (c0 :: tl0) ++ rest from rfl, ← hi0,
          parseNum_intRepr n rest hstop]
        rfl
      | str s =>
        have hcs : skipWs cs =
            '"' :: ((s.data.map jsonEscapeChar).flatten ++ '"' :: rest) := by
          rw [hskip]
          simp only [dumpChars, jsonEscape, List.cons_append,
            List.append_assoc, List.singleton_append, List.nil_append]
        rw [parseVal, hcs]
        simp only []
        rw [parseJStr_escape s.data rest]
        rfl
      | list xs =>
        cases xs with
        | nil =>
          have hcs : skipWs cs = '[' :: (']' :: rest) := by
            rw [hskip]; rfl
          rw [parseVal, hcs]; rfl
        | cons x xs2 =>
          obtain ⟨c2, tl2, hd2, hw2, hne2, _⟩ := dumpList_head x xs2
          have hcs : skipWs cs = '[' :: (c2 :: (tl2 ++ ']' :: rest)) := by
            rw [hskip]
            simp only [dumpChars, List.cons_append, List.append_assoc,
              List.singleton_append, List.nil_append, hd2]
          rw [parseVal, hcs]
          simp only [skipWs_not_ws hw2, if_neg hne2]
          have hq := ihQ (x :: xs2) (c2 :: (tl2 ++ ']' :: rest)) rest
            (List.cons_ne_nil x xs2)
            (by rw [skipWs_not_ws hw2, hd2]; rfl)
            (by simp only [costV] at hcost; omega) hstop
          rw [hq]
          rfl
      | dict fs =>
        cases fs with
        | nil =>
          have hcs : skipWs cs = '\x7b' :: ('\x7d' :: rest) := by
            rw [hskip]; rfl
          rw [parseVal, hcs]; rfl
        | cons p fs2 =>
          obtain ⟨tl2, hd2⟩ := dumpFields_head p.1 p.2 fs2
          have hcs : skipWs cs = '\x7b' :: ('"' :: (tl2 ++ '\x7d' :: rest)) := by
            rw [hskip]
            simp only [dumpChars, List.cons_append, List.append_assoc,
              List.singleton_append, List.nil_append, hd2]
          rw [parseVal, hcs]
          simp only [skipWs_not_ws (show jsonWs '"' = false from rfl)]
          have hr := ihR (p :: fs2) ('"' :: (tl2 ++ '\x7d' :: rest)) rest
            (List.cons_ne_nil p fs2)
            (by rw [skipWs_not_ws (show jsonWs '"' = false from rfl), hd2]; rfl)
            (by simp only [costV] at hcost; omega) hstop
          rw [hr]
          rfl
    · intro xs cs rest hne hskip hcost hstop
      match xs with
      | [x] =>
        have hs1 : skipWs cs = dumpChars x ++ ']' :: rest := by
          rw [hskip]; simp only [dumpList]
        have hPV := ihP x cs (']' :: rest) hs1
          (by simp only [costE] at hcost; omega)
          (numStop_cons (by decide))
        rw [parseElems, hPV]
        rfl
      | x :: y :: ys =>
        have hs1 : skipWs cs =
            dumpChars x ++ (',' :: ' ' :: (dumpList (y :: ys) ++ ']' :: rest)) := by
          rw [hskip]
          simp only [dumpList, List.cons_append, List.append_assoc]
        have hPV := ihP x cs (',' :: ' ' :: (dumpList (y :: ys) ++ ']' :: rest))
          hs1 (by rw [costE] at hcost; omega) (numStop_cons (by decide))
        rw [parseElems, hPV]
        obtain ⟨c2, tl2, hd2, hw2, _, _⟩ := dumpList_head y ys
        have hq := ihQ (y :: ys) (' ' :: (dumpList (y :: ys) ++ ']' :: rest)) rest
          (List.cons_ne_nil y ys)
          (by
            rw [skipWs_ws (by decide), hd2, List.cons_append,
              skipWs_not_ws hw2])
          (by rw [costE] at hcost; have := costV_pos x; omega) hstop
        simp only []
        rw [skipWs_not_ws (by decide : jsonWs ',' = false)]
        simp only [if_pos rfl]
        rw [hq]
        rfl
    · intro fs cs rest hne hskip hcost hstop
      match fs with
      | [(k, v)] =>
        have hcs : skipWs cs = '"' :: ((k.data.map jsonEscapeChar).flatten ++
            '"' :: (':' :: ' ' :: (dumpChars v ++ '\x7d' :: rest))) := by
          rw [hskip]
          simp only [dumpFields, jsonEscape, List.cons_append,
            List.append_assoc, List.singleton_append, List.nil_append]
        obtain ⟨c0, tl0, hd0, hw0, _, _⟩ := dumpChars_head v
        have hPV := ihP v (' ' :: (dumpChars v ++ '\x7d' :: rest))
          ('\x7d' :: rest)
          (by
            rw [skipWs_ws (by decide), hd0, List.cons_append,
              skipWs_not_ws hw0])
          (by simp only [costF] at hcost; omega)
          (numStop_cons (by decide))
        rw [parseFields, hcs]
        simp only []
        rw [parseJStr_escape k.data (':' :: ' ' :: (dumpChars v ++ '\x7d' :: rest))]
        simp only []
        rw [skipWs_not_ws (by decide : jsonWs ':' = false)]
        simp only [if_pos rfl]
        rw [hPV]
        rfl
      | (k, v) :: g :: gs =>
        have hcs : skipWs cs = '"' :: ((k.data.map jsonEscapeChar).flatten ++
            '"' :: (':' :: ' ' :: (dumpChars v ++ ',' :: ' ' ::
              (dumpFields (g :: gs) ++ '\x7d' :: rest)))) := by
          rw [hskip]
          simp only [dumpFields, jsonEscape, List.cons_append,
            List.append_assoc, List.singleton_append, List.nil_append]
        obtain ⟨c0, tl0, hd0, hw0, _, _⟩ := dumpChars_head v
        have hPV := ihP v (' ' :: (dumpChars v ++ ',' :: ' ' ::
            (dumpFields (g :: gs) ++ '\x7d' :: rest)))
          (',' :: ' ' :: (dumpFields (g :: gs) ++ '\x7d' :: rest))
          (by
            rw [skipWs_ws (by decide), hd0, List.cons_append,
              skipWs_not_ws hw0])
          (by rw [costF] at hcost; omega)
          (numStop_cons (by decide))
        obtain ⟨tl3, hd3⟩ := dumpFields_head g.1 g.2 gs
        have hr := ihR (g :: gs) (' ' :: (dumpFields (g :: gs) ++ '\x7d' :: rest))
          rest (List.cons_ne_nil g gs)
          (by
            rw [skipWs_ws (by decide)]
            rw [show ((g.1, g.2) :: gs : List (String × PyVal)) = g :: gs
              from rfl] at hd3
            rw [hd3, List.cons_append, skipWs_not_ws (by decide)])
          (by rw [costF] at hcost; have := costV_pos v; omega) hstop
        rw [parseFields, hcs]
        simp only []
        rw [parseJStr_escape k.data (':' :: ' ' :: (dumpChars v ++ ',' :: ' ' ::
          (dumpFields (g :: gs) ++ '\x7d' :: rest)))]
        simp only []
        rw [skipWs_not_ws (by decide : jsonWs ':' = false)]
        simp only [if_pos rfl]
        rw [hPV]
        simp only []
        rw [skipWs_not_ws (by decide : jsonWs ',' = false)]
        simp only [if_pos rfl]
        rw [hr]
        rfl

/-- `json.loads` inverts `json.dumps` on every modelled value. -/
theorem jsonLoads_dumps (v : PyVal) : jsonLoads (jsonDumps v) = some v := by
  have hskip : skipWs (dumpChars v) = dumpChars v ++ [] := by
    obtain ⟨c, tl, hcc, hw, _, _⟩ := dumpChars_head v
    rw [List.append_nil, hcc, skipWs_not_ws hw]
  have hcost : costV v ≤ 2 * (jsonDumps v).length + 2 := by
    have h1 := costV_le v
    have hlen : (jsonDumps v).length = (dumpChars v).length := rfl
    omega
  have h := (parse_dump (2 * (jsonDumps v).length + 2)).1 v (dumpChars v) []
    hskip hcost numStop_nil
  rw [jsonLoads, show (jsonDumps v).data = dumpChars v from rfl, h]
  rfl

/-! ## Characterizing the message loop -/

theorem segStr_of_resolve {t : PyVal} {s : String}
    (h : resolveSegment t = .str s) : segStr t = s := by
  cases t with
  | dict fs =>
    rw [resolveSegment] at h
    rw [segStr, h]
  | none => exact PyVal.str.inj h
  | bool b => exact PyVal.str.inj h
  | int n => exact PyVal.str.inj h
  | str s2 => exact PyVal.str.inj h
  | list xs => exact PyVal.str.inj h

theorem asStrs_some : ∀ (ts : List PyVal) (ss : List String),
    asStrs (List.map resolveSegment ts) = some ss → ss = List.map segStr ts := by
  intro ts
  induction ts with
  | nil =>
    intro ss h
    simp only [List.map_nil, asStrs] at h
    injection h with h1
    simp [← h1]
  | cons t ts ih =>
    intro ss h
    rw [List.map_cons] at h
    cases ht : resolveSegment t with
    | str s =>
      rw [ht, asStrs] at h
      cases hrest : asStrs (ts.map resolveSegment) with
      | none => rw [hrest] at h; simp at h
      | some ss2 =>
        rw [hrest] at h
        simp only [Option.map_some'] at h
        injection h with h1
        rw [← h1, ih ss2 hrest, List.map_cons, segStr_of_resolve ht]
    | none => rw [ht] at h; simp [asStrs] at h
    | bool b => rw [ht] at h; simp [asStrs] at h
    | int n => rw [ht] at h; simp [asStrs] at h
    | list xs => rw [ht] at h; simp [asStrs] at h
    | dict fs => rw [ht] at h; simp [asStrs] at h

theorem textToStr_ok : ∀ {tv : PyVal} {t : String}, textToStr tv = .ok t →
    t = normTextV tv := by
  intro tv t h
  cases tv with
  | list ts =>
    rw [textToStr] at h
    cases ha : asStrs (ts.map resolveSegment) with
    | none => rw [ha] at h; simp at h
    | some ss =>
      rw [ha] at h
      injection h with h1
      rw [normTextV, ← h1, asStrs_some ts ss ha]
  | str s => exact (Except.ok.inj h).symm
  | none => exact (Except.ok.inj h).symm
  | bool b => exact (Except.ok.inj h).symm
  | int n => exact (Except.ok.inj h).symm
  | dict fs => exact (Except.ok.inj h).symm

theorem asStrs_of_segOk : ∀ (ts : List PyVal), (∀ t ∈ ts, segOk t = true) →
    asStrs (List.map resolveSegment ts) = some (List.map segStr ts) := by
  intro ts
  induction ts with
  | nil => intro _; rfl
  | cons t ts ih =>
    intro hall
    have ht := hall t (List.mem_cons_self t ts)
    have hrest := ih (fun u hu => hall u (List.mem_cons_of_mem t hu))
    cases t with
    | dict fs =>
      rw [segOk] at ht
      cases hg : dGetD fs "text" (.str "") with
      | str s =>
        simp only [List.map_cons, resolveSegment, hg, asStrs, hrest,
          Option.map_some']
        rw [segStr, hg]
      | none => rw [hg] at ht; simp at ht
      | bool b => rw [hg] at ht; simp at ht
      | int n => rw [hg] at ht; simp at ht
      | list xs => rw [hg] at ht; simp at ht
      | dict fs2 => rw [hg] at ht; simp at ht
    | none => simp [List.map_cons, resolveSegment, asStrs, hrest, segStr]
    | bool b => simp [List.map_cons, resolveSegment, asStrs, hrest, segStr]
    | int n => simp [List.map_cons, resolveSegment, asStrs, hrest, segStr]
    | str s => simp [List.map_cons, resolveSegment, asStrs, hrest, segStr]
    | list xs => simp [List.map_cons, resolveSegment, asStrs, hrest, segStr]

theorem textToStr_wf : ∀ {tv : PyVal}, textOkV tv = true →
    textToStr tv = .ok (normTextV tv) := by
  intro tv h
  cases tv with
  | list ts =>
    rw [textOkV, List.all_eq_true] at h
    rw [textToStr, asStrs_of_segOk ts (fun t htm => h t htm), normTextV]
  | str s => rfl
  | none => rfl
  | bool b => rfl
  | int n => rfl
  | dict fs => rfl

theorem msgTimeF_truthy {fs : List (String × PyVal)} {nv : Int}
    (hT : pyTruthy (dGetD fs "date_unixtime" PyVal.none) = true)
    (hN : pyNum (dGetD fs "date_unixtime" PyVal.none) = .ok nv) :
    msgTimeF fs = some nv := by
  cases hdv : dGetD fs "date_unixtime" PyVal.none with
  | int n =>
    rw [hdv] at hT hN
    have h1 := Except.ok.inj hN
    subst h1
    simp [msgTimeF, hdv, hT]
  | bool b =>
    rw [hdv] at hT hN
    have h1 := Except.ok.inj hN
    subst h1
    simp [msgTimeF, hdv, hT]
  | none => rw [hdv] at hN; exact Except.noConfusion hN
  | str s => rw [hdv] at hN; exact Except.noConfusion hN
  | list xs => rw [hdv] at hN; exact Except.noConfusion hN
  | dict fs2 => rw [hdv] at hN; exact Except.noConfusion hN

theorem msgTimeF_falsy {fs : List (String × PyVal)}
    (hT : pyTruthy (dGetD fs "date_unixtime" PyVal.none) = false) :
    msgTimeF fs = Option.none := by
  simp [msgTimeF, hT]

theorem processMsg_ok {st st2 : RowState} {m : PyVal}
    (h : processMsg st m = .ok st2) : st2 = pureStep st m := by
  cases m with
  | dict fs =>
    rw [processMsg] at h
    cases htt : textToStr (dGetD fs "text" (.str "")) with
    | error e => rw [htt] at h; exact Except.noConfusion h
    | ok text =>
      rw [htt] at h
      cases hT : pyTruthy (dGetD fs "date_unixtime" PyVal.none) with
      | false =>
        rw [hT] at h
        simp only [Bool.false_eq_true, if_false] at h
        have h2 := (Except.ok.inj h).symm
        subst h2
        simp only [pureStep, trimTextM, msgFields, normTextF,
          ← textToStr_ok htt, msgTimeM, msgTimeF_falsy hT, msgIdsM, msgIdsF,
          RowState.mk.injEq]
        refine ⟨trivial, trivial, trivial, ?_⟩
        by_cases hid : pyTruthy (dGetD fs "id" PyVal.none) = true <;> simp [hid]
      | true =>
        rw [hT] at h
        simp only [if_true] at h
        cases hN : pyNum (dGetD fs "date_unixtime" PyVal.none) with
        | error e =>
          rw [hN] at h
          exact Except.noConfusion h
        | ok nv =>
          rw [hN] at h
          simp only [Except.map] at h
          have h2 := (Except.ok.inj h).symm
          subst h2
          simp only [pureStep, trimTextM, msgFields, normTextF,
            ← textToStr_ok htt, msgTimeM, msgTimeF_truthy hT hN, msgIdsM,
            msgIdsF, RowState.mk.injEq]
          refine ⟨trivial, trivial, trivial, ?_⟩
          by_cases hid : pyTruthy (dGetD fs "id" PyVal.none) = true <;> simp [hid]
  | none => exact Except.noConfusion h
  | bool b => exact Except.noConfusion h
  | int n => exact Except.noConfusion h
  | str s => exact Except.noConfusion h
  | list xs => exact Except.noConfusion h

theorem processMsg_wf {st : RowState} {m : PyVal} (hok : msgOk m = true) :
    processMsg st m = .ok (pureStep st m) := by
  cases m with
  | dict fs =>
    rw [msgOk, Bool.and_eq_true] at hok
    obtain ⟨htext, htime⟩ := hok
    rw [processMsg, textToStr_wf htext]
    cases hT : pyTruthy (dGetD fs "date_unixtime" PyVal.none) with
    | false =>
      simp only [hT, Bool.false_eq_true, if_false]
      simp only [pureStep, trimTextM, msgFields, normTextF, msgTimeM,
        msgTimeF_falsy hT, msgIdsM, msgIdsF]
      by_cases hid : pyTruthy (dGetD fs "id" PyVal.none) = true <;> simp [hid]
    | true =>
      cases hdv : dGetD fs "date_unixtime" PyVal.none with
      | int n =>
        rw [hdv] at hT
        have hN : pyNum (dGetD fs "date_unixtime" PyVal.none) = .ok n := by
          rw [hdv]; rfl
        simp only [hdv, hT, if_true, pyNum, Except.map]
        simp only [pureStep, trimTextM, msgFields, normTextF, msgTimeM,
          msgTimeF_truthy (hdv ▸ hT) hN, msgIdsM, msgIdsF]
        by_cases hid : pyTruthy (dGetD fs "id" PyVal.none) = true <;> simp [hid]
      | bool b =>
        rw [hdv] at hT
        have hN : pyNum (dGetD fs "date_unixtime" PyVal.none) =
            .ok (if b then (1 : Int) else 0) := by
          rw [hdv]; rfl
        simp only [hdv, hT, if_true, pyNum, Except.map]
        simp only [pureStep, trimTextM, msgFields, normTextF, msgTimeM,
          msgTimeF_truthy (hdv ▸ hT) hN, msgIdsM, msgIdsF]
        by_cases hid : pyTruthy (dGetD fs "id" PyVal.none) = true <;> simp [hid]
      | none => rw [hdv] at hT; exact absurd hT (by decide)
      | str s =>
        rw [hdv] at htime hT
        simp [timeOkV, hT] at htime
      | list xs =>
        rw [hdv] at htime hT
        simp [timeOkV, hT] at htime
      | dict fs2 =>
        rw [hdv] at htime hT
        simp [timeOkV, hT] at htime
  | none => exact absurd hok (by simp [msgOk])
  | bool b => exact absurd hok (by simp [msgOk])
  | int n => exact absurd hok (by simp [msgOk])
  | str s => exact absurd hok (by simp [msgOk])
  | list xs => exact absurd hok (by simp [msgOk])

theorem textToStr_err {tv : PyVal} {e : PyErr} (h : textToStr tv = .error e) :
    e = .typeError := by
  cases tv with
  | list ts =>
    rw [textToStr] at h
    cases ha : asStrs (ts.map resolveSegment) with
    | none => rw [ha] at h; exact (Except.error.inj h).symm
    | some ss => rw [ha] at h; exact Except.noConfusion h
  | str s => exact Except.noConfusion h
  | none => exact Except.noConfusion h
  | bool b => exact Except.noConfusion h
  | int n => exact Except.noConfusion h
  | dict fs => exact Except.noConfusion h

theorem processMsg_err {st : RowState} {m : PyVal} {e : PyErr}
    (h : processMsg st m = .error e) : e = .typeError ∨ e = .attributeError := by
  cases m with
  | dict fs =>
    rw [processMsg] at h
    cases htt : textToStr (dGetD fs "text" (.str "")) with
    | error e2 =>
      rw [htt] at h
      exact Or.inl ((Except.error.inj h).symm.trans (textToStr_err htt))
    | ok text =>
      rw [htt] at h
      cases hT : pyTruthy (dGetD fs "date_unixtime" PyVal.none) with
      | false =>
        rw [hT] at h
        simp only [Bool.false_eq_true, if_false] at h
        exact Except.noConfusion h
      | true =>
        rw [hT] at h
        simp only [if_true] at h
        cases hN : pyNum (dGetD fs "date_unixtime" PyVal.none) with
        | error e2 =>
          rw [hN] at h
          simp only [Except.map] at h
          have h1 := (Except.error.inj h).symm
          subst h1
          cases hdv : dGetD fs "date_unixtime" PyVal.none <;> rw [hdv] at hN <;>
            first
            | exact Except.noConfusion hN
            | exact Or.inl (Except.error.inj hN).symm
        | ok nv =>
          rw [hN] at h
          simp only [Except.map] at h
          exact Except.noConfusion h
  | none => exact Or.inr (Except.error.inj h).symm
  | bool b => exact Or.inr (Except.error.inj h).symm
  | int n => exact Or.inr (Except.error.inj h).symm
  | str s => exact Or.inr (Except.error.inj h).symm
  | list xs => exact Or.inr (Except.error.inj h).symm

theorem processMsgs_ok : ∀ (msgs : List PyVal) (st st2 : RowState),
    processMsgs st msgs = .ok st2 → st2 = msgs.foldl pureStep st := by
  intro msgs
  induction msgs with
  | nil =>
    intro st st2 h
    rw [List.foldl_nil]
    exact (Except.ok.inj h).symm
  | cons m ms ih =>
    intro st st2 h
    rw [processMsgs] at h
    cases hm : processMsg st m with
    | error e => rw [hm] at h; exact Except.noConfusion h
    | ok stm =>
      rw [hm] at h
      rw [List.foldl_cons, ← processMsg_ok hm]
      exact ih stm st2 h

theorem processMsgs_wf : ∀ (msgs : List PyVal) (st : RowState),
    (∀ m ∈ msgs, msgOk m = true) →
    processMsgs st msgs = .ok (msgs.foldl pureStep st) := by
  intro msgs
  induction msgs with
  | nil => intro st _; rfl
  | cons m ms ih =>
    intro st hall
    rw [processMsgs, processMsg_wf (hall m (List.mem_cons_self m ms)),
      List.foldl_cons]
    exact ih (pureStep st m) (fun u hu => hall u (List.mem_cons_of_mem m hu))

theorem processMsgs_err : ∀ (msgs : List PyVal) (st : RowState) {e : PyErr},
    processMsgs st msgs = .error e → e = .typeError ∨ e = .attributeError := by
  intro msgs
  induction msgs with
  | nil => intro st e h; exact Except.noConfusion h
  | cons m ms ih =>
    intro st e h
    rw [processMsgs] at h
    cases hm : processMsg st m with
    | error e2 =>
      rw [hm] at h
      have h1 := Except.error.inj h
      subst h1
      exact processMsg_err hm
    | ok stm =>
      rw [hm] at h
      exact ih stm h

/-! ## The pure fold, componentwise -/

def optFoldMin (o : Option Int) (ts : List Int) : Option Int :=
  ts.foldl (fun acc n => some (foldMin acc n)) o

def optFoldMax (o : Option Int) (ts : List Int) : Option Int :=
  ts.foldl (fun acc n => some (foldMax acc n)) o

theorem foldl_pureStep_texts : ∀ (msgs : List PyVal) (st : RowState),
    (msgs.foldl pureStep st).texts = st.texts ++ msgs.map trimTextM := by
  intro msgs
  induction msgs with
  | nil => intro st; simp
  | cons m ms ih =>
    intro st
    rw [List.foldl_cons, ih, List.map_cons]
    show (st.texts ++ [trimTextM m]) ++ ms.map trimTextM = _
    simp

theorem foldl_pureStep_ids : ∀ (msgs : List PyVal) (st : RowState),
    (msgs.foldl pureStep st).ids = st.ids ++ idsOf msgs := by
  intro msgs
  induction msgs with
  | nil => intro st; simp [idsOf]
  | cons m ms ih =>
    intro st
    rw [List.foldl_cons, ih]
    show (st.ids ++ msgIdsM m) ++ idsOf ms = st.ids ++ idsOf (m :: ms)
    simp [idsOf]

theorem foldl_pureStep_minT : ∀ (msgs : List PyVal) (st : RowState),
    (msgs.foldl pureStep st).minT = optFoldMin st.minT (timesOf msgs) := by
  intro msgs
  induction msgs with
  | nil => intro st; simp [optFoldMin, timesOf]
  | cons m ms ih =>
    intro st
    rw [List.foldl_cons, ih]
    cases hmt : msgTimeM m with
    | none => simp [timesOf, List.filterMap_cons, hmt, pureStep]
    | some t => simp [timesOf, List.filterMap_cons, hmt, pureStep, optFoldMin]

theorem foldl_pureStep_maxT : ∀ (msgs : List PyVal) (st : RowState),
    (msgs.foldl pureStep st).maxT = optFoldMax st.maxT (timesOf msgs) := by
  intro msgs
  induction msgs with
  | nil => intro st; simp [optFoldMax, timesOf]
  | cons m ms ih =>
    intro st
    rw [List.foldl_cons, ih]
    cases hmt : msgTimeM m with
    | none => simp [timesOf, List.filterMap_cons, hmt, pureStep]
    | some t => simp [timesOf, List.filterMap_cons, hmt, pureStep, optFoldMax]

theorem optFoldMin_some_spec : ∀ (ts : List Int) (m v : Int),
    optFoldMin (some m) ts = some v →
    (v = m ∨ v ∈ ts) ∧ v ≤ m ∧ ∀ x ∈ ts, v ≤ x := by
  intro ts
  induction ts with
  | nil =>
    intro m v h
    have h1 := Option.some.inj h
    exact ⟨Or.inl h1.symm, le_of_eq h1.symm, by simp⟩
  | cons t ts ih =>
    intro m v h
    rw [optFoldMin, List.foldl_cons] at h
    obtain ⟨hmem, hle, hall⟩ := ih (foldMin (some m) t) v h
    have hmin : foldMin (some m) t = min m t := rfl
    rw [hmin] at hmem hle
    refine ⟨?_, le_trans hle (min_le_left m t), ?_⟩
    · rcases hmem with h1 | h1
      · rcases min_choice m t with h2 | h2
        · exact Or.inl (h1.trans h2)
        · exact Or.inr (by rw [h1, h2]; exact List.mem_cons_self t ts)
      · exact Or.inr (List.mem_cons_of_mem t h1)
    · intro x hx
      rcases List.mem_cons.mp hx with h1 | h1
      · exact h1 ▸ le_trans hle (min_le_right m t)
      · exact hall x h1

theorem optFoldMax_some_spec : ∀ (ts : List Int) (m v : Int),
    optFoldMax (some m) ts = some v →
    (v = m ∨ v ∈ ts) ∧ m ≤ v ∧ ∀ x ∈ ts, x ≤ v := by
  intro ts
  induction ts with
  | nil =>
    intro m v h
    have h1 := Option.some.inj h
    exact ⟨Or.inl h1.symm, le_of_eq h1, by simp⟩
  | cons t ts ih =>
    intro m v h
    rw [optFoldMax, List.foldl_cons] at h
    obtain ⟨hmem, hle, hall⟩ := ih (foldMax (some m) t) v h
    have hmax : foldMax (some m) t = max m t := rfl
    rw [hmax] at hmem hle
    refine ⟨?_, le_trans (le_max_left m t) hle, ?_⟩
    · rcases hmem with h1 | h1
      · rcases max_choice m t with h2 | h2
        · exact Or.inl (h1.trans h2)
        · exact Or.inr (by rw [h1, h2]; exact List.mem_cons_self t ts)
      · exact Or.inr (List.mem_cons_of_mem t h1)
    · intro x hx
      rcases List.mem_cons.mp hx with h1 | h1
      · exact h1 ▸ le_trans (le_max_right m t) hle
      · exact hall x h1

theorem optFoldMin_some_ex : ∀ (ts : List Int) (m : Int),
    ∃ v, optFoldMin (some m) ts = some v := by
  intro ts
  induction ts with
  | nil => intro m; exact ⟨m, rfl⟩
  | cons t ts ih =>
    intro m
    rw [optFoldMin, List.foldl_cons]
    exact ih (foldMin (some m) t)

theorem optFoldMax_some_ex : ∀ (ts : List Int) (m : Int),
    ∃ v, optFoldMax (some m) ts = some v := by
  intro ts
  induction ts with
  | nil => intro m; exact ⟨m, rfl⟩
  | cons t ts ih =>
    intro m
    rw [optFoldMax, List.foldl_cons]
    exact ih (foldMax (some m) t)

theorem optFoldMin_none_spec (ts : List Int) :
    (ts = [] → optFoldMin Option.none ts = Option.none) ∧
    (ts ≠ [] → ∃ v, optFoldMin Option.none ts = some v) ∧
    ∀ v, optFoldMin Option.none ts = some v → v ∈ ts ∧ ∀ x ∈ ts, v ≤ x := by
  cases ts with
  | nil =>
    exact ⟨fun _ => rfl, fun h => absurd rfl h, fun v h => Option.noConfusion h⟩
  | cons t ts =>
    have hstep : optFoldMin Option.none (t :: ts) = optFoldMin (some t) ts := rfl
    refine ⟨fun h => List.noConfusion h, fun _ => ?_, fun v h => ?_⟩
    · rw [hstep]; exact optFoldMin_some_ex ts t
    · rw [hstep] at h
      obtain ⟨hmem, hle, hall⟩ := optFoldMin_some_spec ts t v h
      refine ⟨?_, ?_⟩
      · rcases hmem with h1 | h1
        · exact h1 ▸ List.mem_cons_self t ts
        · exact List.mem_cons_of_mem t h1
      · intro x hx
        rcases List.mem_cons.mp hx with h1 | h1
        · exact h1 ▸ hle
        · exact hall x h1

theorem optFoldMax_none_spec (ts : List Int) :
    (ts = [] → optFoldMax Option.none ts = Option.none) ∧
    (ts ≠ [] → ∃ v, optFoldMax Option.none ts = some v) ∧
    ∀ v, optFoldMax Option.none ts = some v → v ∈ ts ∧ ∀ x ∈ ts, x ≤ v := by
  cases ts with
  | nil =>
    exact ⟨fun _ => rfl, fun h => absurd rfl h, fun v h => Option.noConfusion h⟩
  | cons t ts =>
    have hstep : optFoldMax Option.none (t :: ts) = optFoldMax (some t) ts := rfl
    refine ⟨fun h => List.noConfusion h, fun _ => ?_, fun v h => ?_⟩
    · rw [hstep]; exact optFoldMax_some_ex ts t
    · rw [hstep] at h
      obtain ⟨hmem, hle, hall⟩ := optFoldMax_some_spec ts t v h
      refine ⟨?_, ?_⟩
      · rcases hmem with h1 | h1
        · exact h1 ▸ List.mem_cons_self t ts
        · exact List.mem_cons_of_mem t h1
      · intro x hx
        rcases List.mem_cons.mp hx with h1 | h1
        · exact h1 ▸ hle
        · exact hall x h1

/-! ## Join and document-emission lemmas -/

theorem str_data_ne {s : String} (h : s ≠ "") : s.data ≠ [] := by
  intro hd
  apply h
  cases s with
  | mk l => cases hd; rfl

theorem joinWith_ne_nil (sep : List Char) : ∀ (l : List String),
    (∃ s ∈ l, s ≠ "") → joinWith sep l ≠ [] := by
  intro l
  induction l with
  | nil => intro h; obtain ⟨s, hs, _⟩ := h; exact absurd hs (by simp)
  | cons s t ih =>
    intro h
    cases t with
    | nil =>
      obtain ⟨u, hu, hne⟩ := h
      have hus : u = s := by simpa using hu
      subst hus
      exact str_data_ne hne
    | cons t2 rest =>
      obtain ⟨u, hu, hne⟩ := h
      rcases List.mem_cons.mp hu with h1 | h1
      · subst h1
        rw [joinWith]
        intro hcontra
        rcases List.append_eq_nil.mp hcontra with ⟨h2, _⟩
        rcases List.append_eq_nil.mp h2 with ⟨h3, _⟩
        exact str_data_ne hne h3
      · have hjoin : joinWith sep (t2 :: rest) ≠ [] := ih ⟨u, h1, hne⟩
        rw [joinWith]
        intro hcontra
        rcases List.append_eq_nil.mp hcontra with ⟨_, h2⟩
        exact hjoin h2

theorem pyJoin_ne_empty {sep : String} {l : List String}
    (h : ∃ s ∈ l, s ≠ "") : pyJoin sep l ≠ "" := by
  intro hcontra
  apply joinWith_ne_nil sep.data l h
  have : (pyJoin sep l).data = ("" : String).data := by rw [hcontra]
  simpa [pyJoin] using this

theorem buildDoc_some {i : Nat} {st : RowState} {d : Doc}
    (h : buildDoc i st = some d) :
    d = ⟨pyJoin "\n" (st.texts.filter (fun s => s != "")), i, st.minT, st.maxT,
      jsonDumps (.list st.ids)⟩ ∧
    pyJoin "\n" (st.texts.filter (fun s => s != "")) ≠ "" := by
  rw [buildDoc] at h
  by_cases hfull : pyJoin "\n" (st.texts.filter (fun s => s != "")) = ""
  · rw [if_neg (by simp [hfull])] at h
    exact Option.noConfusion h
  · rw [if_pos (by simpa using hfull)] at h
    exact ⟨(Option.some.inj h).symm, hfull⟩

theorem buildDoc_of_nonempty {i : Nat} {st : RowState}
    (h : ∃ s ∈ st.texts, s ≠ "") :
    buildDoc i st = some ⟨pyJoin "\n" (st.texts.filter (fun s => s != "")), i,
      st.minT, st.maxT, jsonDumps (.list st.ids)⟩ := by
  obtain ⟨s, hs, hne⟩ := h
  have hfil : s ∈ st.texts.filter (fun s => s != "") := by
    rw [List.mem_filter]
    exact ⟨hs, by simpa using hne⟩
  have hjoin := @pyJoin_ne_empty "\n" _ ⟨s, hfil, hne⟩
  rw [buildDoc, if_pos (by simpa using hjoin)]

theorem buildDoc_all_empty {i : Nat} {st : RowState}
    (h : ∀ s ∈ st.texts, s = "") : buildDoc i st = Option.none := by
  have hfil : st.texts.filter (fun s => s != "") = [] := by
    rw [List.filter_eq_nil_iff]
    intro s hs
    simp [h s hs]
  rw [buildDoc, hfil]
  simp [pyJoin, joinWith]

/-! ## Characterizing `processRow` -/

/-- Whether the parsed messages of a row are of the documented shape (so
the per-row loop runs to completion). -/
def rowOkV (v : PyVal) : Bool :=
  match parse_messages_json v with
  | .list msgs => msgs.all msgOk
  | w => !pyTruthy w

theorem processRow_ok : ∀ {i : Nat} {v : PyVal} {o : Option Doc},
    processRow i v = .ok o → o = rowDocPure i v := by
  intro i v o h
  rw [processRow] at h
  rw [rowDocPure]
  cases hp : parse_messages_json v with
  | list msgs =>
    rw [hp] at h
    cases msgs with
    | nil =>
      simp only [pyTruthy, List.isEmpty_nil, Bool.not_true, Bool.false_eq_true,
        if_false] at h
      simp only [List.isEmpty_nil, if_pos rfl]
      exact (Except.ok.inj h).symm
    | cons m ms =>
      simp only [pyTruthy, List.isEmpty_cons, Bool.not_false, if_true,
        pyIterate] at h
      cases hf : processMsgs initState (m :: ms) with
      | error e => rw [hf] at h; exact Except.noConfusion h
      | ok st =>
        rw [hf] at h
        simp only [List.isEmpty_cons, Bool.false_eq_true, if_false]
        rw [← processMsgs_ok (m :: ms) initState st hf]
        exact (Except.ok.inj h).symm
  | str s =>
    rw [hp] at h
    by_cases hs : s = ""
    · subst hs
      simp only [pyTruthy] at h
      simp only [bne_self_eq_false, Bool.false_eq_true, if_false] at h
      exact (Except.ok.inj h).symm
    · have hsb : (s != "") = true := by simpa using hs
      have hchars : s.data ≠ [] := str_data_ne hs
      cases hd : s.data with
      | nil => exact absurd hd hchars
      | cons c cs =>
        simp only [pyTruthy, hsb, if_true, pyIterate, hd,
          List.map_cons, processMsgs, processMsg] at h
        exact Except.noConfusion h
  | dict fs =>
    rw [hp] at h
    cases fs with
    | nil =>
      simp only [pyTruthy, List.isEmpty_nil, Bool.not_true, Bool.false_eq_true,
        if_false] at h
      exact (Except.ok.inj h).symm
    | cons f fs2 =>
      simp only [pyTruthy, List.isEmpty_cons, Bool.not_false, if_true,
        pyIterate, List.map_cons, processMsgs, processMsg] at h
      exact Except.noConfusion h
  | none =>
    rw [hp] at h
    simp only [pyTruthy, Bool.false_eq_true, if_false] at h
    exact (Except.ok.inj h).symm
  | bool b =>
    rw [hp] at h
    cases b with
    | false =>
      simp only [pyTruthy, Bool.false_eq_true, if_false] at h
      exact (Except.ok.inj h).symm
    | true =>
      simp only [pyTruthy, if_true, pyIterate] at h
      exact Except.noConfusion h
  | int n =>
    rw [hp] at h
    by_cases hn : n = 0
    · subst hn
      simp only [pyTruthy, bne_self_eq_false, Bool.false_eq_true, if_false] at h
      exact (Except.ok.inj h).symm
    · have hnb : (n != 0) = true := by simpa using hn
      simp only [pyTruthy, hnb, if_true, pyIterate] at h
      exact Except.noConfusion h

theorem processRow_wf {i : Nat} {v : PyVal} (h : rowOkV v = true) :
    processRow i v = .ok (rowDocPure i v) := by
  rw [rowOkV] at h
  rw [processRow, rowDocPure]
  cases hp : parse_messages_json v with
  | list msgs =>
    rw [hp] at h
    cases msgs with
    | nil => rfl
    | cons m ms =>
      rw [List.all_eq_true] at h
      simp only [pyTruthy, List.isEmpty_cons, Bool.not_false, if_true,
        pyIterate, Bool.false_eq_true, if_false]
      rw [processMsgs_wf (m :: ms) initState h]
  | str s =>
    rw [hp] at h
    simp only [pyTruthy] at h ⊢
    have hs : s = "" := by simpa using h
    subst hs
    simp
  | dict fs =>
    rw [hp] at h
    simp only [pyTruthy] at h ⊢
    have hfs : fs.isEmpty = true := by simpa using h
    simp [hfs]
  | none => rfl
  | bool b =>
    rw [hp] at h
    simp only [pyTruthy] at h ⊢
    have hb : b = false := by simpa using h
    subst hb
    simp
  | int n =>
    rw [hp] at h
    simp only [pyTruthy] at h ⊢
    have hn : n = 0 := by simpa using h
    subst hn
    simp

theorem processRow_err : ∀ {i : Nat} {v : PyVal} {e : PyErr},
    processRow i v = .error e → e ≠ .valueError := by
  intro i v e h
  rw [processRow] at h
  cases hT : pyTruthy (parse_messages_json v) with
  | false =>
    rw [hT] at h
    simp only [Bool.false_eq_true, if_false] at h
    exact Except.noConfusion h
  | true =>
    rw [hT] at h
    simp only [if_true] at h
    cases hi : pyIterate (parse_messages_json v) with
    | error e2 =>
      simp only [hi] at h
      have h1 := (Except.error.inj h).symm
      subst h1
      cases hpv : parse_messages_json v <;> rw [hpv] at hi <;>
        first
        | exact Except.noConfusion hi
        | · have h2 := (Except.error.inj hi).symm
            subst h2
            decide
    | ok msgs =>
      simp only [hi] at h
      cases hf : processMsgs initState msgs with
      | error e2 =>
        simp only [hf] at h
        have h1 := (Except.error.inj h).symm
        subst h1
        rcases processMsgs_err msgs initState hf with h2 | h2 <;> subst h2 <;>
          decide
      | ok st =>
        simp only [hf] at h
        exact Except.noConfusion h

/-! ## Characterizing the row loop and `prepare_documents_from_df` -/

/-- The document a row contributes, as a pure function of its position and
its `messages_json` value. -/
def erow (p : Nat × List (String × PyVal)) : Option Doc :=
  rowDocPure p.1 (rowGet p.2 "messages_json")

theorem processRows_ok : ∀ (rows : List (Nat × List (String × PyVal)))
    (acc docs : List Doc), processRows acc rows = .ok docs →
    docs = acc ++ rows.filterMap erow := by
  intro rows
  induction rows with
  | nil =>
    intro acc docs h
    rw [List.filterMap_nil, List.append_nil]
    exact (Except.ok.inj h).symm
  | cons p ps ih =>
    intro acc docs h
    rw [processRows] at h
    cases hr : processRow p.1 (rowGet p.2 "messages_json") with
    | error e =>
      simp only [rowStep, hr] at h
      exact Except.noConfusion h
    | ok o =>
      simp only [rowStep, hr] at h
      have he : erow p = o := (processRow_ok hr).symm
      cases o with
      | some d =>
        rw [ih (acc ++ [d]) docs h, List.filterMap_cons, he]
        simp
      | none =>
        rw [ih acc docs h, List.filterMap_cons, he]

theorem processRows_wf : ∀ (rows : List (Nat × List (String × PyVal)))
    (acc : List Doc),
    (∀ p ∈ rows, rowOkV (rowGet p.2 "messages_json") = true) →
    processRows acc rows = .ok (acc ++ rows.filterMap erow) := by
  intro rows
  induction rows with
  | nil => intro acc _; rw [List.filterMap_nil, List.append_nil]; rfl
  | cons p ps ih =>
    intro acc hall
    have hp := @processRow_wf p.1 _ (hall p (List.mem_cons_self p ps))
    rw [processRows]
    simp only [rowStep, hp]
    have htail := fun acc2 => ih acc2 (fun q hq => hall q (List.mem_cons_of_mem p hq))
    cases he : rowDocPure p.1 (rowGet p.2 "messages_json") with
    | some d =>
      simp only [htail (acc ++ [d]), List.filterMap_cons, erow, he]
      simp
    | none =>
      simp only [htail acc, List.filterMap_cons, erow, he]

theorem processRows_err : ∀ (rows : List (Nat × List (String × PyVal)))
    (acc : List Doc) {e : PyErr}, processRows acc rows = .error e →
    e ≠ .valueError := by
  intro rows
  induction rows with
  | nil => intro acc e h; exact Except.noConfusion h
  | cons p ps ih =>
    intro acc e h
    rw [processRows] at h
    cases hr : processRow p.1 (rowGet p.2 "messages_json") with
    | error e2 =>
      simp only [rowStep, hr] at h
      have h1 := (Except.error.inj h).symm
      subst h1
      exact processRow_err hr
    | ok o =>
      simp only [rowStep, hr] at h
      cases o with
      | some d => exact ih (acc ++ [d]) h
      | none => exact ih acc h

theorem prepare_ok {df : DataFrame} {docs : List Doc}
    (h : prepare_documents_from_df df = .ok docs) :
    "messages_json" ∈ df.columns ∧ docs = df.data.enum.filterMap erow := by
  rw [prepare_documents_from_df] at h
  by_cases hc : "messages_json" ∈ df.columns
  · rw [if_pos hc] at h
    have := processRows_ok df.data.enum [] docs h
    rw [List.nil_append] at this
    exact ⟨hc, this⟩
  · rw [if_neg hc] at h
    exact Except.noConfusion h

theorem prepare_wf {df : DataFrame} (hc : "messages_json" ∈ df.columns)
    (hall : ∀ p ∈ df.data.enum, rowOkV (rowGet p.2 "messages_json") = true) :
    prepare_documents_from_df df = .ok (df.data.enum.filterMap erow) := by
  rw [prepare_documents_from_df, if_pos hc]
  have := processRows_wf df.data.enum [] hall
  rwa [List.nil_append] at this

theorem rowDocPure_index : ∀ {i : Nat} {v : PyVal} {d : Doc},
    rowDocPure i v = some d → d.original_df_index = i := by
  intro i v d h
  rw [rowDocPure] at h
  cases hp : parse_messages_json v with
  | list msgs =>
    simp only [hp] at h
    by_cases hne : msgs.isEmpty = true
    · rw [if_pos hne] at h; exact Option.noConfusion h
    · rw [if_neg hne] at h
      rw [(buildDoc_some h).1]
  | str s => simp only [hp] at h; exact Option.noConfusion h
  | dict fs => simp only [hp] at h; exact Option.noConfusion h
  | none => simp only [hp] at h; exact Option.noConfusion h
  | bool b => simp only [hp] at h; exact Option.noConfusion h
  | int n => simp only [hp] at h; exact Option.noConfusion h

theorem erow_index {p : Nat × List (String × PyVal)} {d : Doc}
    (h : erow p = some d) : d.original_df_index = p.1 :=
  rowDocPure_index h

theorem rowDocPure_some : ∀ {i : Nat} {v : PyVal} {d : Doc},
    rowDocPure i v = some d →
    ∃ msgs, parse_messages_json v = .list msgs ∧ msgs ≠ [] ∧
      d = ⟨pyJoin "\n" ((msgs.map trimTextM).filter (fun s => s != "")), i,
        optFoldMin Option.none (timesOf msgs),
        optFoldMax Option.none (timesOf msgs),
        jsonDumps (.list (idsOf msgs))⟩ ∧
      pyJoin "\n" ((msgs.map trimTextM).filter (fun s => s != "")) ≠ "" := by
  intro i v d h
  rw [rowDocPure] at h
  cases hp : parse_messages_json v with
  | list msgs =>
    simp only [hp] at h
    by_cases hne : msgs.isEmpty = true
    · rw [if_pos hne] at h; exact Option.noConfusion h
    · rw [if_neg hne] at h
      obtain ⟨hd, hfull⟩ := buildDoc_some h
      have htexts := foldl_pureStep_texts msgs initState
      have hmin := foldl_pureStep_minT msgs initState
      have hmax := foldl_pureStep_maxT msgs initState
      have hids := foldl_pureStep_ids msgs initState
      rw [show initState.texts = [] from rfl, List.nil_append] at htexts
      rw [show initState.minT = Option.none from rfl] at hmin
      rw [show initState.maxT = Option.none from rfl] at hmax
      rw [show initState.ids = [] from rfl, List.nil_append] at hids
      rw [htexts, hmin, hmax, hids] at hd
      rw [htexts] at hfull
      exact ⟨msgs, rfl, fun hmsgs => hne (by rw [hmsgs]; rfl), hd, hfull⟩
  | str s => simp only [hp] at h; exact Option.noConfusion h
  | dict fs => simp only [hp] at h; exact Option.noConfusion h
  | none => simp only [hp] at h; exact Option.noConfusion h
  | bool b => simp only [hp] at h; exact Option.noConfusion h
  | int n => simp only [hp] at h; exact Option.noConfusion h

theorem enumFrom_filterMap_ge : ∀ (l : List (List (String × PyVal)))
    (k : Nat) (d : Doc),
    d ∈ (List.enumFrom k l).filterMap erow → k ≤ d.original_df_index := by
  intro l
  induction l with
  | nil => intro k d h; simp [List.enumFrom] at h
  | cons r t ih =>
    intro k d h
    rw [List.enumFrom_cons, List.filterMap_cons] at h
    cases he : erow (k, r) with
    | some d2 =>
      rw [he] at h
      rcases List.mem_cons.mp h with h1 | h1
      · subst h1
        rw [erow_index he]
      · exact le_trans (by omega) (ih (k + 1) d h1)
    | none =>
      rw [he] at h
      exact le_trans (by omega) (ih (k + 1) d h)

theorem filter_enumFrom_key : ∀ (l : List (List (String × PyVal)))
    (k j : Nat) (row : List (String × PyVal)), k ≤ j → l[j - k]? = some row →
    ((List.enumFrom k l).filterMap erow).filter
      (fun d => d.original_df_index == j) = (erow (j, row)).toList := by
  intro l
  induction l with
  | nil => intro k j row _ h; simp at h
  | cons r t ih =>
    intro k j row hk h
    rw [List.enumFrom_cons, List.filterMap_cons]
    by_cases hkj : k = j
    · subst hkj
      rw [Nat.sub_self, List.getElem?_cons_zero] at h
      have hrow := Option.some.inj h
      subst hrow
      have htail : ∀ d ∈ (List.enumFrom (k + 1) t).filterMap erow,
          ¬ (d.original_df_index == k) = true := by
        intro d hd
        have h2 := enumFrom_filterMap_ge t (k + 1) d hd
        simp only [beq_iff_eq]
        omega
      cases he : erow (k, r) with
      | some d =>
        simp only [he]
        have hbeq : (d.original_df_index == k) = true := by
          simp [erow_index he]
        rw [List.filter_cons, if_pos (by simp [hbeq]),
          List.filter_eq_nil_iff.mpr htail]
        rfl
      | none =>
        simp only [he]
        rw [List.filter_eq_nil_iff.mpr htail]
        rfl
    · have hsub : j - k = (j - (k + 1)) + 1 := by omega
      rw [hsub, List.getElem?_cons_succ] at h
      have htail := ih (k + 1) j row (by omega) h
      cases he : erow (k, r) with
      | some d =>
        simp only [he]
        have hbeq : (d.original_df_index == j) = false := by
          rw [erow_index he]
          simp only [beq_eq_false_iff_ne, ne_eq]
          omega
        rw [List.filter_cons, if_neg (by simp [hbeq])]
        exact htail
      | none =>
        simp only [he]
        exact htail

/-! ## The claims -/

/-- C5: for every message whose `text` field is a sequence of segments (of
the documented joinable shape), the normalized text is the single-space
join, in segment order, of each segment resolved to a string: an object
segment resolves to its `text` field or the empty string, a non-string
segment to its textual representation. -/
theorem claim_C5 : ∀ (ts : List PyVal), (∀ t ∈ ts, segOk t = true) →
    textToStr (.list ts) = .ok (pyJoin " " (ts.map segStr)) := by
  intro ts h
  have hok : textOkV (.list ts) = true := by
    rw [textOkV, List.all_eq_true]
    exact h
  rw [textToStr_wf hok]
  rfl

/-- C5 witness: `[{"text": "Hello"}, " world"]` normalizes to
`"Hello  world"`, preserving the literal leading space of the second
segment. -/
theorem claim_C5_witness :
    textToStr (PyVal.list [PyVal.dict [("text", PyVal.str "Hello")],
      PyVal.str " world"]) = .ok "Hello  world" := by
  rw [claim_C5 _ (by decide)]
  rfl

/-- C6 counterexample: on the string `"5"` (valid JSON, not an array),
`parse_messages_json` returns the integer `5`, not a sequence of message
objects, so the claim as stated fails. -/
def isListV (v : PyVal) : Bool :=
  match v with
  | .list _ => true
  | _ => false

theorem claim_C6_counterexample :
    parse_messages_json (PyVal.str "5") = PyVal.int 5 ∧
    isListV (parse_messages_json (PyVal.str "5")) = false :=
  ⟨rfl, rfl⟩

/-- C6 (amended): `parse_messages_json` never raises; a string that fails
structured decoding yields the empty sequence, a sequence passes through
unchanged, any non-string non-sequence yields the empty sequence — but a
string that decodes to non-array JSON is returned as the decoded value,
which need not be a sequence. -/
theorem claim_C6_amended : ∀ v : PyVal,
    (∀ s, v = .str s → jsonLoads s = Option.none →
      parse_messages_json v = .list []) ∧
    (∀ s x, v = .str s → jsonLoads s = some x → parse_messages_json v = x) ∧
    (∀ xs, v = .list xs → parse_messages_json v = .list xs) ∧
    ((∀ s, v ≠ .str s) → (∀ xs, v ≠ .list xs) →
      parse_messages_json v = .list []) := by
  intro v
  refine ⟨?_, ?_, ?_, ?_⟩
  · rintro s rfl h
    simp [parse_messages_json, h]
  · rintro s x rfl h
    simp [parse_messages_json, h]
  · rintro xs rfl
    rfl
  · intro hs hxs
    cases v with
    | str s => exact absurd rfl (hs s)
    | list xs => exact absurd rfl (hxs xs)
    | none => rfl
    | bool b => rfl
    | int n => rfl
    | dict fs => rfl

/-- C6 witness: an unparseable string and a non-string non-list both give
the empty list, decoded JSON passes through, lists pass through. -/
theorem claim_C6_witness :
    parse_messages_json (PyVal.str "invalid json") = .list [] ∧
    parse_messages_json (PyVal.str "[1, 2]") = .list [.int 1, .int 2] ∧
    parse_messages_json (PyVal.list [PyVal.int 7]) = .list [PyVal.int 7] ∧
    parse_messages_json (PyVal.int 123) = .list [] :=
  ⟨(claim_C6_amended _).1 "invalid json" rfl (by rfl),
   (claim_C6_amended _).2.1 "[1, 2]" _ rfl (by rfl),
   (claim_C6_amended _).2.2.1 [PyVal.int 7] rfl,
   (claim_C6_amended _).2.2.2 (fun s h => PyVal.noConfusion h)
     (fun xs h => PyVal.noConfusion h)⟩

/-- C8: a row set lacking the `messages_json` column makes
`prepare_documents_from_df` raise `ValueError` before any row is processed
(whatever the rows hold), producing no documents; when the column is
present that error is never raised. -/
theorem claim_C8 : ∀ df : DataFrame,
    ("messages_json" ∉ df.columns →
      prepare_documents_from_df df = .error .valueError) ∧
    ("messages_json" ∈ df.columns →
      prepare_documents_from_df df ≠ .error .valueError) := by
  intro df
  constructor
  · intro h
    rw [prepare_documents_from_df, if_neg h]
  · intro h hcontra
    rw [prepare_documents_from_df, if_pos h] at hcontra
    exact processRows_err _ _ hcontra rfl

/-- C8 witness: a one-column frame without the field errors with
`ValueError`; with the field present the error does not occur. -/
theorem claim_C8_witness :
    prepare_documents_from_df ⟨["other"], [[("other", PyVal.int 1)]]⟩ =
      .error .valueError ∧
    prepare_documents_from_df ⟨["messages_json"], []⟩ ≠
      .error .valueError :=
  ⟨(claim_C8 _).1 (by decide), (claim_C8 _).2 (by decide)⟩

/-- C9 counterexample: with the client up and the embedding call
succeeding, a vector-store failure during the retrieval query is swallowed
by `search_weaviate` (it returns no hits), and the endpoint answers HTTP
200 with a general-knowledge fallback — not a 502/503-style error. -/
theorem claim_C9_counterexample :
    query_endpoint true (.ok [1]) .raise (.ok (some "fallback")) =
      .response "No relevant context found. General knowledge answer: fallback"
        [] ∧
    ∀ n, query_endpoint true (.ok [1]) .raise (.ok (some "fallback")) ≠
      .httpError n :=
  ⟨rfl, fun _ h => HttpResult.noConfusion h⟩

/-- C9 (amended): an unavailable vector-store client surfaces as HTTP 503
and an embedding-call failure as HTTP 500, but a failure of the
vector-store query itself degrades to the no-context fallback answer with
a normal response; a completion failure yields the static apology string
instead of aborting the request. -/
theorem claim_C9_amended :
    (∀ e q c, query_endpoint false e q c = .httpError 503) ∧
    (∀ emb c, query_endpoint true (.ok emb) .raise c =
      .response ("No relevant context found. General knowledge answer: "
        ++ get_chat_completion c) []) ∧
    (∀ q c, query_endpoint true .raise q c = .httpError 500) ∧
    (get_chat_completion .raise =
      "Sorry, I encountered an error while generating a response.") ∧
    (∀ emb h hs, query_endpoint true (.ok emb) (.ok (h :: hs)) .raise =
      .response "Sorry, I encountered an error while generating a response."
        ((h :: hs).map previewOf)) := by
  refine ⟨fun e q c => rfl, fun emb c => rfl, fun q c => rfl, rfl,
    fun emb h hs => rfl⟩

/-- C10: metadata collection is independent of text content: a message of
the documented shape whose text strips to the empty string still
contributes its truthy id to the collected ids and folds its truthy
timestamp into the running extrema, while its text contributes nothing to
the joined content. -/
theorem claim_C10 : ∀ (st : RowState) (fs : List (String × PyVal)) (t : Int),
    textOkV (dGetD fs "text" (.str "")) = true →
    trimTextM (.dict fs) = "" →
    pyTruthy (dGetD fs "id" PyVal.none) = true →
    dGetD fs "date_unixtime" PyVal.none = .int t → t ≠ 0 →
    processMsg st (.dict fs) =
      .ok ⟨st.texts ++ [""], some (foldMin st.minT t),
        some (foldMax st.maxT t), st.ids ++ [dGetD fs "id" PyVal.none]⟩ ∧
    ((st.texts ++ [""]).filter (fun s => s != "")) =
      st.texts.filter (fun s => s != "") := by
  intro st fs t htext hempty hid hdate ht0
  constructor
  · have hok : msgOk (.dict fs) = true := by
      rw [msgOk, Bool.and_eq_true]
      refine ⟨htext, ?_⟩
      rw [hdate]
      rfl
    rw [processMsg_wf hok]
    have htb : (t != 0) = true := by simpa using ht0
    have htm : msgTimeM (PyVal.dict fs) = some t := by
      simp [msgTimeM, msgTimeF, msgFields, hdate, pyTruthy, htb]
    have hidm : msgIdsM (PyVal.dict fs) = [dGetD fs "id" PyVal.none] := by
      simp [msgIdsM, msgIdsF, msgFields, hid]
    simp [pureStep, hempty, htm, hidm]
  · rw [List.filter_append]
    simp

/-- C10 witness: a message with blank text, id `7` and timestamp `50`
leaves only an empty text contribution but records the id and the
timestamp. -/
theorem claim_C10_witness :
    processMsg initState (PyVal.dict [("text", PyVal.str " "),
      ("id", PyVal.int 7), ("date_unixtime", PyVal.int 50)]) =
      .ok ⟨[""], some 50, some 50, [PyVal.int 7]⟩ ∧
    (([""] : List String).filter (fun s => s != "")) = [] :=
  claim_C10 initState
    [("text", PyVal.str " "), ("id", PyVal.int 7),
     ("date_unixtime", PyVal.int 50)] 50
    (by decide) (by rfl) (by decide) (by rfl) (by decide)

/-- C1: a row whose message field parses to a non-empty sequence of
messages, at least one of which yields non-empty trimmed text, yields
exactly one document, and that document's `original_df_index` equals the
row's positional index in the input — also when earlier rows were
skipped. -/
theorem claim_C1 {df : DataFrame} {docs : List Doc} {i : Nat}
    {row : List (String × PyVal)} {msgs : List PyVal}
    (hok : prepare_documents_from_df df = .ok docs)
    (hrow : df.data[i]? = some row)
    (hparse : parse_messages_json (rowGet row "messages_json") = .list msgs)
    (htext : ∃ m ∈ msgs, trimTextM m ≠ "") :
    ∃ d, docs.filter (fun d => d.original_df_index == i) = [d] ∧
      d.original_df_index = i := by
  obtain ⟨hc, hdocs⟩ := prepare_ok hok
  have hne : msgs ≠ [] := by
    rintro rfl
    obtain ⟨m, hm, _⟩ := htext
    simp at hm
  have hempty : msgs.isEmpty = false := by
    cases msgs with
    | nil => exact absurd rfl hne
    | cons m ms => rfl
  have hrdp : ∃ d0, rowDocPure i (rowGet row "messages_json") = some d0 := by
    rw [rowDocPure]
    simp only [hparse, hempty, Bool.false_eq_true, if_false]
    obtain ⟨m, hm, hmne⟩ := htext
    refine ⟨_, buildDoc_of_nonempty ⟨trimTextM m, ?_, hmne⟩⟩
    rw [foldl_pureStep_texts]
    exact List.mem_append.mpr (Or.inr (List.mem_map_of_mem _ hm))
  obtain ⟨d0, hd0⟩ := hrdp
  have hfil := filter_enumFrom_key df.data 0 i row (Nat.zero_le i)
    (by simpa using hrow)
  rw [hdocs, show df.data.enum = List.enumFrom 0 df.data from rfl, hfil]
  have he : erow (i, row) = some d0 := hd0
  rw [he]
  exact ⟨d0, rfl, rowDocPure_index hd0⟩

/-- C1 witness: with a skipped first row, the valid second row yields
exactly one document indexed `1`. -/
theorem claim_C1_witness :
    ∃ d, List.filter (fun d => d.original_df_index == 1)
        [({ content := "hello", original_df_index := 1,
            start_time := Option.none, end_time := Option.none,
            message_ids := "[1]" } : Doc)] = [d] ∧
      d.original_df_index = 1 :=
  @claim_C1
    ⟨["messages_json"],
      [[("messages_json", PyVal.str "invalid json")],
       [("messages_json", PyVal.list
         [PyVal.dict [("text", PyVal.str "hello"), ("id", PyVal.int 1)]])]]⟩
    _ 1 _ _
    (by rfl) (by rfl) (by rfl)
    ⟨PyVal.dict [("text", PyVal.str "hello"), ("id", PyVal.int 1)],
     List.mem_singleton.mpr rfl, by decide⟩

/-- C2: every emitted document's `content` is the newline-join, in message
order, of the per-message trimmed texts with empty texts dropped, and is
non-empty; a row of documented-shape messages whose texts all trim to
empty yields no document. -/
theorem claim_C2 :
    (∀ (df : DataFrame) (docs : List Doc) (d : Doc),
      prepare_documents_from_df df = .ok docs → d ∈ docs →
      ∃ (i : Nat) (row : List (String × PyVal)) (msgs : List PyVal),
        df.data[i]? = some row ∧
        parse_messages_json (rowGet row "messages_json") = .list msgs ∧
        d.content =
          pyJoin "\n" ((msgs.map trimTextM).filter (fun s => s != "")) ∧
        d.content ≠ "") ∧
    (∀ (i : Nat) (v : PyVal) (msgs : List PyVal),
      parse_messages_json v = .list msgs →
      (∀ m ∈ msgs, msgOk m = true) →
      (∀ m ∈ msgs, trimTextM m = "") →
      processRow i v = .ok Option.none) := by
  constructor
  · intro df docs d hok hd
    obtain ⟨hc, hdocs⟩ := prepare_ok hok
    rw [hdocs] at hd
    obtain ⟨p, hp, he⟩ := List.mem_filterMap.mp hd
    have hget : df.data[p.1]? = some p.2 := List.mem_enum_iff_getElem?.mp hp
    obtain ⟨msgs, hparse, hne, hdeq, hfull⟩ := rowDocPure_some he
    refine ⟨p.1, p.2, msgs, hget, hparse, ?_, ?_⟩
    · rw [hdeq]
    · rw [hdeq]; exact hfull
  · intro i v msgs hparse hwf hempty
    have hrok : rowOkV v = true := by
      rw [rowOkV, hparse, List.all_eq_true]
      exact hwf
    rw [processRow_wf hrok, rowDocPure]
    simp only [hparse]
    by_cases hne : msgs.isEmpty = true
    · rw [if_pos hne]
    · rw [if_neg hne]
      have hall : ∀ s ∈ (List.foldl pureStep initState msgs).texts, s = "" := by
        intro s hs
        rw [foldl_pureStep_texts] at hs
        simp only [show initState.texts = ([] : List String) from rfl,
          List.nil_append] at hs
        obtain ⟨m2, hm2, rfl⟩ := List.mem_map.mp hs
        exact hempty m2 hm2
      rw [buildDoc_all_empty hall]

/-- C2 witness: messages with texts `"a"`, `""`, `"b"` produce content
`"a\nb"`; a row whose single message trims to empty yields no document. -/
theorem claim_C2_witness :
    (∃ (i : Nat) (row : List (String × PyVal)) (msgs : List PyVal),
      (DataFrame.data ⟨["messages_json"],
        [[("messages_json", PyVal.list
          [PyVal.dict [("text", PyVal.str "a")],
           PyVal.dict [("text", PyVal.str "")],
           PyVal.dict [("text", PyVal.str "b")]])]]⟩)[i]? = some row ∧
      parse_messages_json (rowGet row "messages_json") = .list msgs ∧
      ("a\nb" : String) =
        pyJoin "\n" ((msgs.map trimTextM).filter (fun s => s != "")) ∧
      ("a\nb" : String) ≠ "") ∧
    processRow 0 (PyVal.list [PyVal.dict [("text", PyVal.str "  ")]]) =
      .ok Option.none :=
  ⟨claim_C2.1
    ⟨["messages_json"],
      [[("messages_json", PyVal.list
        [PyVal.dict [("text", PyVal.str "a")],
         PyVal.dict [("text", PyVal.str "")],
         PyVal.dict [("text", PyVal.str "b")]])]]⟩
    [{ content := "a\nb", original_df_index := 0, start_time := Option.none,
       end_time := Option.none, message_ids := "[]" }]
    { content := "a\nb", original_df_index := 0, start_time := Option.none,
      end_time := Option.none, message_ids := "[]" }
    (by rfl) (List.mem_singleton.mpr rfl),
   claim_C2.2 0 (PyVal.list [PyVal.dict [("text", PyVal.str "  ")]])
    [PyVal.dict [("text", PyVal.str "  ")]] rfl (by decide) (by decide)⟩

/-- C3: for every emitted document, `start_time` is the minimum and
`end_time` the maximum of the truthy `date_unixtime` values of the row's
messages; with no truthy timestamp both are null (no sentinel); a
`date_unixtime` of `0` is not truthy and never affects the recorded
span. -/
theorem claim_C3 :
    (∀ (df : DataFrame) (docs : List Doc) (d : Doc),
      prepare_documents_from_df df = .ok docs → d ∈ docs →
      ∃ (i : Nat) (row : List (String × PyVal)) (msgs : List PyVal),
        df.data[i]? = some row ∧
        parse_messages_json (rowGet row "messages_json") = .list msgs ∧
        (timesOf msgs = [] →
          d.start_time = Option.none ∧ d.end_time = Option.none) ∧
        (timesOf msgs ≠ [] →
          d.start_time ≠ Option.none ∧ d.end_time ≠ Option.none) ∧
        (∀ v, d.start_time = some v →
          v ∈ timesOf msgs ∧ ∀ x ∈ timesOf msgs, v ≤ x) ∧
        (∀ v, d.end_time = some v →
          v ∈ timesOf msgs ∧ ∀ x ∈ timesOf msgs, x ≤ v)) ∧
    (∀ fs, dGetD fs "date_unixtime" PyVal.none = PyVal.int 0 →
      msgTimeM (PyVal.dict fs) = Option.none) ∧
    (∀ (msgs1 msgs2 : List PyVal) (m : PyVal), msgTimeM m = Option.none →
      timesOf (msgs1 ++ m :: msgs2) = timesOf (msgs1 ++ msgs2)) := by
  refine ⟨?_, ?_, ?_⟩
  · intro df docs d hok hd
    obtain ⟨hc, hdocs⟩ := prepare_ok hok
    rw [hdocs] at hd
    obtain ⟨p, hp, he⟩ := List.mem_filterMap.mp hd
    have hget : df.data[p.1]? = some p.2 := List.mem_enum_iff_getElem?.mp hp
    obtain ⟨msgs, hparse, hne, hdeq, hfull⟩ := rowDocPure_some he
    obtain ⟨hmin0, hminx, hminv⟩ := optFoldMin_none_spec (timesOf msgs)
    obtain ⟨hmax0, hmaxx, hmaxv⟩ := optFoldMax_none_spec (timesOf msgs)
    refine ⟨p.1, p.2, msgs, hget, hparse, ?_, ?_, ?_, ?_⟩
    · intro hts
      rw [hdeq]
      exact ⟨hmin0 hts, hmax0 hts⟩
    · intro hts
      rw [hdeq]
      obtain ⟨v1, hv1⟩ := hminx hts
      obtain ⟨v2, hv2⟩ := hmaxx hts
      constructor
      · show optFoldMin Option.none (timesOf msgs) ≠ Option.none
        rw [hv1]
        exact Option.noConfusion
      · show optFoldMax Option.none (timesOf msgs) ≠ Option.none
        rw [hv2]
        exact Option.noConfusion
    · intro v hv
      rw [hdeq] at hv
      exact hminv v hv
    · intro v hv
      rw [hdeq] at hv
      exact hmaxv v hv
  · intro fs h
    simp [msgTimeM, msgTimeF, msgFields, h, pyTruthy]
  · intro msgs1 msgs2 m h
    rw [timesOf, timesOf, List.filterMap_append, List.filterMap_append,
      List.filterMap_cons, h]

/-- C3 witness: timestamps `200` then `100` give `start_time = 100` and
`end_time = 200`; a lone `date_unixtime: 0` contributes no timestamp. -/
theorem claim_C3_witness :
    (∃ (i : Nat) (row : List (String × PyVal)) (msgs : List PyVal),
      (DataFrame.data ⟨["messages_json"],
        [[("messages_json", PyVal.list
          [PyVal.dict [("text", PyVal.str "x"), ("date_unixtime", PyVal.int 200)],
           PyVal.dict [("text", PyVal.str "y"),
             ("date_unixtime", PyVal.int 100)]])]]⟩)[i]? = some row ∧
      parse_messages_json (rowGet row "messages_json") = .list msgs ∧
      (timesOf msgs = [] →
        (some (100 : Int) : Option Int) = Option.none ∧
        (some (200 : Int) : Option Int) = Option.none) ∧
      (timesOf msgs ≠ [] →
        (some (100 : Int) : Option Int) ≠ Option.none ∧
        (some (200 : Int) : Option Int) ≠ Option.none) ∧
      (∀ v, (some (100 : Int) : Option Int) = some v →
        v ∈ timesOf msgs ∧ ∀ x ∈ timesOf msgs, v ≤ x) ∧
      (∀ v, (some (200 : Int) : Option Int) = some v →
        v ∈ timesOf msgs ∧ ∀ x ∈ timesOf msgs, x ≤ v)) ∧
    msgTimeM (PyVal.dict [("date_unixtime", PyVal.int 0)]) = Option.none :=
  ⟨claim_C3.1
    ⟨["messages_json"],
      [[("messages_json", PyVal.list
        [PyVal.dict [("text", PyVal.str "x"), ("date_unixtime", PyVal.int 200)],
         PyVal.dict [("text", PyVal.str "y"),
           ("date_unixtime", PyVal.int 100)]])]]⟩
    [{ content := "x\ny", original_df_index := 0, start_time := some 100,
       end_time := some 200, message_ids := "[]" }]
    { content := "x\ny", original_df_index := 0, start_time := some 100,
      end_time := some 200, message_ids := "[]" }
    (by rfl) (List.mem_singleton.mpr rfl),
   claim_C3.2.1 [("date_unixtime", PyVal.int 0)] rfl⟩

/-- C4: for every emitted document, JSON-decoding the `message_ids` field
yields exactly the list of id values of the row's messages whose id is
truthy, in original message order — for ids of any type, by the verified
`jsonLoads`/`jsonDumps` round-trip. -/
theorem claim_C4 :
    ∀ (df : DataFrame) (docs : List Doc) (d : Doc),
      prepare_documents_from_df df = .ok docs → d ∈ docs →
      ∃ (i : Nat) (row : List (String × PyVal)) (msgs : List PyVal),
        df.data[i]? = some row ∧
        parse_messages_json (rowGet row "messages_json") = .list msgs ∧
        jsonLoads d.message_ids = some (.list (idsOf msgs)) := by
  intro df docs d hok hd
  obtain ⟨hc, hdocs⟩ := prepare_ok hok
  rw [hdocs] at hd
  obtain ⟨p, hp, he⟩ := List.mem_filterMap.mp hd
  have hget : df.data[p.1]? = some p.2 := List.mem_enum_iff_getElem?.mp hp
  obtain ⟨msgs, hparse, hne, hdeq, hfull⟩ := rowDocPure_some he
  refine ⟨p.1, p.2, msgs, hget, hparse, ?_⟩
  rw [hdeq]
  exact jsonLoads_dumps (.list (idsOf msgs))

/-- C4 witness: a row with integer ids `1` and `2` emits a field decoding
back to `[1, 2]`, and a row with the string id `"a"` emits a field
decoding back to `["a"]`. -/
theorem claim_C4_witness :
    (∃ (i : Nat) (row : List (String × PyVal)) (msgs : List PyVal),
      (DataFrame.data ⟨["messages_json"],
        [[("messages_json", PyVal.list
          [PyVal.dict [("text", PyVal.str "x"), ("id", PyVal.int 1)],
           PyVal.dict [("text", PyVal.str "y"), ("id", PyVal.int 2)]])]]⟩)[i]? =
        some row ∧
      parse_messages_json (rowGet row "messages_json") = .list msgs ∧
      jsonLoads "[1, 2]" = some (.list (idsOf msgs))) ∧
    (∃ (i : Nat) (row : List (String × PyVal)) (msgs : List PyVal),
      (DataFrame.data ⟨["messages_json"],
        [[("messages_json", PyVal.list
          [PyVal.dict [("text", PyVal.str "x"),
            ("id", PyVal.str "a")]])]]⟩)[i]? = some row ∧
      parse_messages_json (rowGet row "messages_json") = .list msgs ∧
      jsonLoads "[\"a\"]" = some (.list (idsOf msgs))) :=
  ⟨claim_C4
    ⟨["messages_json"],
      [[("messages_json", PyVal.list
        [PyVal.dict [("text", PyVal.str "x"), ("id", PyVal.int 1)],
         PyVal.dict [("text", PyVal.str "y"), ("id", PyVal.int 2)]])]]⟩
    [{ content := "x\ny", original_df_index := 0, start_time := Option.none,
       end_time := Option.none, message_ids := "[1, 2]" }]
    { content := "x\ny", original_df_index := 0, start_time := Option.none,
      end_time := Option.none, message_ids := "[1, 2]" }
    (by rfl) (List.mem_singleton.mpr rfl),
   claim_C4
    ⟨["messages_json"],
      [[("messages_json", PyVal.list
        [PyVal.dict [("text", PyVal.str "x"), ("id", PyVal.str "a")]])]]⟩
    [{ content := "x", original_df_index := 0, start_time := Option.none,
       end_time := Option.none, message_ids := "[\"a\"]" }]
    { content := "x", original_df_index := 0, start_time := Option.none,
      end_time := Option.none, message_ids := "[\"a\"]" }
    (by rfl) (List.mem_singleton.mpr rfl)⟩

/-- C7 counterexample: with the `messages_json` column present, a row
whose messages decode to `[1]` (a list holding a non-object) makes
`prepare_documents_from_df` raise `AttributeError`, and the earlier valid
row's document is lost with it — the exception is not confined to the
malformed row. -/
theorem claim_C7_counterexample :
    prepare_documents_from_df
      ⟨["messages_json"],
       [[("messages_json", PyVal.str "[\x7b\"text\": \"good\"\x7d]")],
        [("messages_json", PyVal.str "[1]")]]⟩ =
      .error .attributeError := by
  rfl

/-- C7 (amended): only JSON-decoding-level failures are swallowed: a row
whose `messages_json` parses to nothing truthy (for instance a string that
fails decoding) contributes no document and raises nothing, and when every
row either parses to nothing truthy or parses to a list of
documented-shape messages, the whole call succeeds with each row's
documents unaffected by the others. -/
theorem claim_C7_amended :
    (∀ df : DataFrame, "messages_json" ∈ df.columns →
      (∀ p ∈ df.data.enum, rowOkV (rowGet p.2 "messages_json") = true) →
      prepare_documents_from_df df = .ok (df.data.enum.filterMap erow)) ∧
    (∀ (i : Nat) (v : PyVal), pyTruthy (parse_messages_json v) = false →
      processRow i v = .ok Option.none ∧ rowDocPure i v = Option.none) := by
  constructor
  · intro df hc hall
    exact prepare_wf hc hall
  · intro i v h
    have hrdp : rowDocPure i v = Option.none := by
      cases hp : parse_messages_json v with
      | list msgs =>
        rw [hp] at h
        have hmt : msgs.isEmpty = true := by simpa [pyTruthy] using h
        rw [rowDocPure]
        simp only [hp, hmt, if_true]
      | str s => rw [rowDocPure]; simp only [hp]
      | dict fs => rw [rowDocPure]; simp only [hp]
      | none => rw [rowDocPure]; simp only [hp]
      | bool b => rw [rowDocPure]; simp only [hp]
      | int n => rw [rowDocPure]; simp only [hp]
    refine ⟨?_, hrdp⟩
    rw [processRow]
    simp only [h, Bool.false_eq_true, if_false]

/-- C7 witness: a frame with one undecodable row and one valid row
succeeds, emitting only the valid row's document; the undecodable row
alone yields no document and no exception. -/
theorem claim_C7_witness :
    prepare_documents_from_df
      ⟨["messages_json"],
       [[("messages_json", PyVal.str "invalid json")],
        [("messages_json", PyVal.list
          [PyVal.dict [("text", PyVal.str "ok"), ("id", PyVal.int 3)]])]]⟩ =
      .ok [{ content := "ok", original_df_index := 1,
             start_time := Option.none, end_time := Option.none,
             message_ids := "[3]" }] ∧
    processRow 0 (PyVal.str "invalid json") = .ok Option.none := by
  constructor
  · rw [claim_C7_amended.1 _ (by decide) (by decide)]
    rfl
  · exact (claim_C7_amended.2 0 (PyVal.str "invalid json") (by rfl)).1
